import Mathlib

/-!
Verification of the libewok EWAH compressed bitmap library.

The repository ships the public header (src/ewok.h); the function bodies are
modelled here from the repository's specification, faithfully following its
description of the word layout, the builder, the iterators, the combiners and
the serialization format.  Words are modelled as natural numbers that are kept
below 2^64; the compressed buffer is a list of such words.
-/

set_option maxHeartbeats 1000000

namespace Ewok

/-- 2^64, one past the largest value of an `eword_t`. -/
def wordMax : Nat := 18446744073709551616

/-- The all-ones 64-bit word, `~(eword_t)0`. -/
def allOnes : Nat := 18446744073709551615

/-- The 64-bit word filling a clean run with bit value `b`. -/
def cleanWord (b : Bool) : Nat := if b then allOnes else 0

/-- Largest running-length count that fits in the 32-bit `R` field. -/
def maxRun : Nat := 4294967295

/-- Largest literal count that fits in the 31-bit `L` field. -/
def maxLit : Nat := 2147483647

/-- Modelled from the spec: marker bit 0 is the run bit `b`. -/
def rlwRunBit (m : Nat) : Bool := m % 2 = 1

/-- Modelled from the spec: marker bits 1..32 hold the run length `R`. -/
def rlwRunLen (m : Nat) : Nat := m / 2 % 4294967296

/-- Modelled from the spec: marker bits 33..63 hold the literal count `L`. -/
def rlwLitCount (m : Nat) : Nat := m / 8589934592 % 2147483648

/-- Assemble a marker word from run bit, run length and literal count. -/
def mkRLW (b : Bool) (r l : Nat) : Nat := (if b then 1 else 0) + 2 * r + 8589934592 * l

theorem rlwRunBit_mkRLW (b : Bool) (r l : Nat) : rlwRunBit (mkRLW b r l) = b := by
  cases b <;> simp [rlwRunBit, mkRLW] <;> omega

theorem rlwRunLen_mkRLW (b : Bool) (r l : Nat) (hr : r ≤ maxRun) :
    rlwRunLen (mkRLW b r l) = r := by
  cases b <;> simp [rlwRunLen, mkRLW, maxRun] at * <;> omega

theorem rlwLitCount_mkRLW (b : Bool) (r l : Nat) (hr : r ≤ maxRun) (hl : l ≤ maxLit) :
    rlwLitCount (mkRLW b r l) = l := by
  cases b <;> simp [rlwLitCount, mkRLW, maxRun, maxLit] at * <;> omega

theorem mkRLW_lt (b : Bool) (r l : Nat) (hr : r ≤ maxRun) (hl : l ≤ maxLit) :
    mkRLW b r l < wordMax := by
  cases b <;> simp [mkRLW, wordMax, maxRun, maxLit] at * <;> omega

theorem rlwRunLen_lt (m : Nat) : rlwRunLen m < 4294967296 := by
  exact Nat.mod_lt _ (by omega)

theorem rlwLitCount_lt (m : Nat) : rlwLitCount m < 2147483648 := by
  exact Nat.mod_lt _ (by omega)

theorem rlwRunLen_le_maxRun (m : Nat) : rlwRunLen m ≤ maxRun := by
  have := rlwRunLen_lt m; simp [maxRun]; omega

theorem rlwLitCount_le_maxLit (m : Nat) : rlwLitCount m ≤ maxLit := by
  have := rlwLitCount_lt m; simp [maxLit]; omega

/-- A word below 2^64 is exactly the marker assembled from its decoded fields. -/
theorem mkRLW_eta (m : Nat) (h : m < wordMax) :
    mkRLW (rlwRunBit m) (rlwRunLen m) (rlwLitCount m) = m := by
  simp only [wordMax] at h
  by_cases hb : m % 2 = 1 <;>
    simp [mkRLW, rlwRunBit, rlwRunLen, rlwLitCount, hb] <;> omega

theorem cleanWord_lt (b : Bool) : cleanWord b < wordMax := by
  cases b <;> simp [cleanWord, allOnes, wordMax]

/-- Fuel-driven block expansion; the fuel dominates the list length so the
recursion is structural and evaluation works by kernel reduction. -/
def decodeBufGo : Nat → List Nat → List Nat
  | _, [] => []
  | 0, _ :: _ => []
  | fuel + 1, m :: rest =>
    List.replicate (rlwRunLen m) (cleanWord (rlwRunBit m))
      ++ rest.take (rlwLitCount m)
      ++ decodeBufGo fuel (rest.drop (rlwLitCount m))

/-- Expand a compressed buffer into its uncompressed 64-bit word sequence:
each block contributes `R` copies of the clean word followed by its `L`
literal words. -/
def decodeBuf (l : List Nat) : List Nat := decodeBufGo l.length l

/-- Fuel-driven block parse check. -/
def bufOKGo : Nat → List Nat → Bool
  | _, [] => true
  | 0, _ :: _ => false
  | fuel + 1, m :: rest =>
    decide (rlwLitCount m ≤ rest.length) && bufOKGo fuel (rest.drop (rlwLitCount m))

/-- The buffer parses into a sequence of complete `[marker | literals]` blocks. -/
def bufOK (l : List Nat) : Bool := bufOKGo l.length l

theorem decodeBufGo_congr (f1 : Nat) : ∀ (f2 : Nat) (l : List Nat),
    l.length ≤ f1 → l.length ≤ f2 → decodeBufGo f1 l = decodeBufGo f2 l := by
  induction f1 with
  | zero =>
    intro f2 l h1 _
    cases l with
    | nil => cases f2 <;> rfl
    | cons m rest => simp at h1
  | succ f1 ih =>
    intro f2 l h1 h2
    cases l with
    | nil => cases f2 <;> rfl
    | cons m rest =>
      cases f2 with
      | zero => simp at h2
      | succ f2 =>
        simp only [decodeBufGo]
        rw [ih f2 _ (by simp at h1 ⊢; omega) (by simp at h2 ⊢; omega)]

theorem decodeBufGo_eq (fuel : Nat) (l : List Nat) (h : l.length ≤ fuel) :
    decodeBufGo fuel l = decodeBuf l :=
  decodeBufGo_congr fuel l.length l h (le_refl _)

theorem decodeBuf_nil : decodeBuf [] = [] := rfl

theorem decodeBuf_cons (m : Nat) (rest : List Nat) :
    decodeBuf (m :: rest) =
      List.replicate (rlwRunLen m) (cleanWord (rlwRunBit m))
        ++ rest.take (rlwLitCount m)
        ++ decodeBuf (rest.drop (rlwLitCount m)) := by
  show decodeBufGo (rest.length + 1) (m :: rest) = _
  simp only [decodeBufGo]
  rw [decodeBufGo_eq _ _ (by simp)]

theorem bufOKGo_congr (f1 : Nat) : ∀ (f2 : Nat) (l : List Nat),
    l.length ≤ f1 → l.length ≤ f2 → bufOKGo f1 l = bufOKGo f2 l := by
  induction f1 with
  | zero =>
    intro f2 l h1 _
    cases l with
    | nil => cases f2 <;> rfl
    | cons m rest => simp at h1
  | succ f1 ih =>
    intro f2 l h1 h2
    cases l with
    | nil => cases f2 <;> rfl
    | cons m rest =>
      cases f2 with
      | zero => simp at h2
      | succ f2 =>
        simp only [bufOKGo]
        rw [ih f2 _ (by simp at h1 ⊢; omega) (by simp at h2 ⊢; omega)]

theorem bufOKGo_eq (fuel : Nat) (l : List Nat) (h : l.length ≤ fuel) :
    bufOKGo fuel l = bufOK l :=
  bufOKGo_congr fuel l.length l h (le_refl _)

theorem bufOK_nil : bufOK [] = true := rfl

theorem bufOK_cons (m : Nat) (rest : List Nat) :
    bufOK (m :: rest) =
      (decide (rlwLitCount m ≤ rest.length) && bufOK (rest.drop (rlwLitCount m))) := by
  show bufOKGo (rest.length + 1) (m :: rest) = _
  simp only [bufOKGo]
  rw [bufOKGo_eq _ _ (by simp)]

/-- Induction along the block structure of a buffer. -/
theorem buf_induction (P : List Nat → Prop) (hnil : P [])
    (hcons : ∀ m rest, P (rest.drop (rlwLitCount m)) → P (m :: rest)) :
    ∀ l, P l := by
  have main : ∀ n l, List.length l ≤ n → P l := by
    intro n
    induction n with
    | zero =>
      intro l hl
      cases l with
      | nil => exact hnil
      | cons m rest => simp at hl
    | succ n ih =>
      intro l hl
      cases l with
      | nil => exact hnil
      | cons m rest =>
        refine hcons m rest (ih _ ?_)
        simp at hl ⊢
        omega
  intro l
  exact main l.length l (le_refl _)

/-- Decoding distributes over appending behind a fully parsed prefix. -/
theorem decodeBuf_append (xs ys : List Nat) (h : bufOK xs = true) :
    decodeBuf (xs ++ ys) = decodeBuf xs ++ decodeBuf ys := by
  revert h
  induction xs using buf_induction with
  | hnil => simp [decodeBuf_nil]
  | hcons m rest ih =>
    intro h
    rw [bufOK_cons, Bool.and_eq_true, decide_eq_true_eq] at h
    obtain ⟨hL, hrec⟩ := h
    rw [List.cons_append, decodeBuf_cons, decodeBuf_cons,
      List.take_append_of_le_length hL, List.drop_append_of_le_length hL]
    rw [ih hrec]
    simp [List.append_assoc]

/-- A complete final block decodes to its run followed by its literals. -/
theorem decodeBuf_lastBlock (m : Nat) (lits : List Nat)
    (h : lits.length = rlwLitCount m) :
    decodeBuf (m :: lits) =
      List.replicate (rlwRunLen m) (cleanWord (rlwRunBit m)) ++ lits := by
  rw [decodeBuf_cons]
  rw [List.take_of_length_le (by omega), List.drop_eq_nil_of_le (by omega)]
  simp [decodeBuf_nil]

/-- Appending a complete block keeps the buffer parseable. -/
theorem bufOK_append_block (xs : List Nat) (m : Nat) (lits : List Nat)
    (h : bufOK xs = true) (hl : lits.length = rlwLitCount m) :
    bufOK (xs ++ m :: lits) = true := by
  revert h
  induction xs using buf_induction with
  | hnil =>
    intro _
    simp only [List.nil_append]
    rw [bufOK_cons]
    rw [List.drop_eq_nil_of_le (by omega)]
    simp [bufOK_nil, hl]
  | hcons m' rest ih =>
    intro h
    rw [bufOK_cons, Bool.and_eq_true, decide_eq_true_eq] at h
    obtain ⟨hL, hrec⟩ := h
    rw [List.cons_append, bufOK_cons,
      List.drop_append_of_le_length hL]
    simp only [ih hrec, Bool.and_true]
    simp; omega

theorem bufOK_length_le (m : Nat) (rest : List Nat) (h : bufOK (m :: rest) = true) :
    rlwLitCount m ≤ rest.length := by
  rw [bufOK_cons, Bool.and_eq_true, decide_eq_true_eq] at h
  exact h.1

theorem bufOK_tail (m : Nat) (rest : List Nat) (h : bufOK (m :: rest) = true) :
    bufOK (rest.drop (rlwLitCount m)) = true := by
  rw [bufOK_cons, Bool.and_eq_true] at h
  exact h.2

/-- All words produced by decoding a parseable buffer of 64-bit words are
64-bit words. -/
theorem decodeBuf_bounded (xs : List Nat) (h : bufOK xs = true)
    (hb : ∀ w ∈ xs, w < wordMax) :
    ∀ w ∈ decodeBuf xs, w < wordMax := by
  revert h hb
  induction xs using buf_induction with
  | hnil => simp [decodeBuf_nil]
  | hcons m rest ih =>
    intro h hb
    rw [decodeBuf_cons]
    intro w hw
    rw [List.mem_append, List.mem_append] at hw
    rcases hw with (hw | hw) | hw
    · rw [List.eq_of_mem_replicate hw]; exact cleanWord_lt _
    · exact hb w (by right; exact List.mem_of_mem_take hw)
    · refine ih (bufOK_tail _ _ h) ?_ w hw
      intro w' hw'
      exact hb w' (by right; exact List.mem_of_mem_drop hw')

/-- The 64 bits of a word, least significant first. -/
def wordBools (w : Nat) : List Bool := (List.range 64).map w.testBit

/-- The bit string represented by a list of 64-bit words. -/
def wordsBools (ws : List Nat) : List Bool := ws.flatMap wordBools

/-- Indices of the `true` entries of a bit string, in ascending order. -/
def trueIdx : List Bool → List Nat
  | [] => []
  | true :: rest => 0 :: (trueIdx rest).map (· + 1)
  | false :: rest => (trueIdx rest).map (· + 1)

/-- Positions of the set bits of a word list, in ascending order. -/
def setPositions (ws : List Nat) : List Nat := trueIdx (wordsBools ws)

theorem length_wordBools (w : Nat) : (wordBools w).length = 64 := by
  simp [wordBools]

theorem wordsBools_nil : wordsBools [] = [] := rfl

theorem wordsBools_cons (w : Nat) (ws : List Nat) :
    wordsBools (w :: ws) = wordBools w ++ wordsBools ws := by
  simp [wordsBools]

theorem wordsBools_append (xs ys : List Nat) :
    wordsBools (xs ++ ys) = wordsBools xs ++ wordsBools ys := by
  simp [wordsBools]

theorem length_wordsBools (ws : List Nat) : (wordsBools ws).length = 64 * ws.length := by
  induction ws with
  | nil => simp [wordsBools_nil]
  | cons w ws ih => rw [wordsBools_cons]; simp [length_wordBools, ih]; ring

theorem getD_wordBools (w p : Nat) :
    (wordBools w).getD p false = (decide (p < 64) && w.testBit p) := by
  by_cases hp : p < 64
  · simp [wordBools, List.getD_eq_getElem?_getD, List.getElem?_map, List.getElem?_range, hp]
  · rw [List.getD_eq_default _ _ (by rw [length_wordBools]; omega)]
    simp [hp]

theorem getD_wordsBools (ws : List Nat) (p : Nat) :
    (wordsBools ws).getD p false = (ws.getD (p / 64) 0).testBit (p % 64) := by
  induction ws generalizing p with
  | nil => simp [wordsBools_nil, List.getD]
  | cons w ws ih =>
    rw [wordsBools_cons]
    by_cases hp : p < 64
    · rw [List.getD_append _ _ _ _ (by simp [length_wordBools]; omega)]
      rw [getD_wordBools]
      rw [Nat.div_eq_of_lt hp, Nat.mod_eq_of_lt hp]
      simp [hp]
    · rw [List.getD_append_right _ _ _ _ (by simp [length_wordBools]; omega)]
      rw [length_wordBools, ih]
      have h64 : 64 ≤ p := by omega
      have : (p - 64) / 64 = p / 64 - 1 := by omega
      have hdiv : p / 64 = (p - 64) / 64 + 1 := by omega
      have hmod : (p - 64) % 64 = p % 64 := by omega
      rw [hmod, hdiv]
      simp [List.getD_cons_succ]

theorem trueIdx_nil : trueIdx [] = [] := rfl

theorem trueIdx_cons_true (l : List Bool) :
    trueIdx (true :: l) = 0 :: (trueIdx l).map (· + 1) := rfl

theorem trueIdx_cons_false (l : List Bool) :
    trueIdx (false :: l) = (trueIdx l).map (· + 1) := rfl

theorem mem_trueIdx (l : List Bool) (p : Nat) :
    p ∈ trueIdx l ↔ l.getD p false = true := by
  induction l generalizing p with
  | nil => simp [trueIdx_nil, List.getD]
  | cons b rest ih =>
    cases p with
    | zero =>
      cases b <;> simp [trueIdx_cons_true, trueIdx_cons_false, List.getD_cons_zero]
    | succ n =>
      cases b with
      | false =>
        rw [trueIdx_cons_false, List.getD_cons_succ, ← ih]
        constructor
        · intro h
          rw [List.mem_map] at h
          obtain ⟨a, ha, hae⟩ := h
          have : a = n := by omega
          rwa [← this]
        · intro h
          rw [List.mem_map]
          exact ⟨n, h, rfl⟩
      | true =>
        rw [trueIdx_cons_true, List.getD_cons_succ, ← ih]
        constructor
        · intro h
          rcases List.mem_cons.mp h with h | h
          · omega
          · rw [List.mem_map] at h
            obtain ⟨a, ha, hae⟩ := h
            have : a = n := by omega
            rwa [← this]
        · intro h
          exact List.mem_cons.mpr (Or.inr (List.mem_map.mpr ⟨n, h, rfl⟩))

theorem trueIdx_sorted (l : List Bool) : List.Sorted (· < ·) (trueIdx l) := by
  induction l with
  | nil => simp [trueIdx_nil]
  | cons b rest ih =>
    have hmap : List.Sorted (· < ·) ((trueIdx rest).map (· + 1)) := by
      exact List.Pairwise.map _ (fun a b h => by omega) ih
    cases b with
    | false => rw [trueIdx_cons_false]; exact hmap
    | true =>
      rw [trueIdx_cons_true, List.sorted_cons]
      refine ⟨?_, hmap⟩
      intro x hx
      rw [List.mem_map] at hx
      obtain ⟨a, _, rfl⟩ := hx
      omega

theorem trueIdx_replicate_false (k : Nat) (l : List Bool) :
    trueIdx (List.replicate k false ++ l) = (trueIdx l).map (· + k) := by
  induction k with
  | zero => simp
  | succ n ih =>
    rw [List.replicate_succ, List.cons_append, trueIdx_cons_false, ih, List.map_map]
    refine List.map_congr_left ?_
    intro a _
    show a + n + 1 = a + (n + 1)
    omega

theorem wordBools_cleanWord (b : Bool) : wordBools (cleanWord b) = List.replicate 64 b := by
  rw [List.eq_replicate_iff]
  refine ⟨length_wordBools _, ?_⟩
  intro x hx
  rw [wordBools, List.mem_map] at hx
  obtain ⟨j, hj, rfl⟩ := hx
  rw [List.mem_range] at hj
  cases b with
  | false => simp [cleanWord, Nat.zero_testBit]
  | true =>
    show Nat.testBit (cleanWord true) j = true
    have : cleanWord true = 2 ^ 64 - 1 := by simp [cleanWord, allOnes]
    rw [this, Nat.testBit_two_pow_sub_one]
    simpa using hj

theorem wordsBools_replicate_clean (r : Nat) (b : Bool) :
    wordsBools (List.replicate r (cleanWord b)) = List.replicate (64 * r) b := by
  induction r with
  | zero => simp [wordsBools_nil]
  | succ n ih =>
    rw [List.replicate_succ, wordsBools_cons, wordBools_cleanWord, ih]
    rw [show 64 * (n + 1) = 64 + 64 * n by ring, List.replicate_add]

theorem wordsBools_drop (ws : List Nat) (k : Nat) :
    (wordsBools ws).drop (64 * k) = wordsBools (ws.drop k) := by
  induction ws generalizing k with
  | nil => simp [wordsBools_nil]
  | cons w ws ih =>
    cases k with
    | zero => simp
    | succ n =>
      have h1 : (wordBools w ++ wordsBools ws).drop 64 = wordsBools ws := by
        conv_lhs => rw [← length_wordBools w]
        exact List.drop_left _ _
      rw [wordsBools_cons, show 64 * (n + 1) = 64 + 64 * n by ring,
        ← List.drop_drop, h1, ih]
      simp

theorem mem_setPositions (ws : List Nat) (p : Nat) :
    p ∈ setPositions ws ↔ (ws.getD (p / 64) 0).testBit (p % 64) = true := by
  rw [setPositions, mem_trueIdx, getD_wordsBools]

theorem setPositions_sorted (ws : List Nat) : List.Sorted (· < ·) (setPositions ws) :=
  trueIdx_sorted _

/-- The compressed bitmap: `struct ewah_bitmap`.  `buffer` is the used part of
the word buffer (so `buffer_size` is its length), `alloc_size` the allocated
capacity, `bit_size` the logical length in bits and `rlw` the index of the
active marker. -/
structure EwahBitmap where
  buffer : List Nat
  alloc_size : Nat
  bit_size : Nat
  rlw : Nat
deriving Repr, DecidableEq

/-- Modelled from the spec: a freshly allocated bitmap holds one empty marker. -/
def ewah_new : EwahBitmap :=
  { buffer := [0], alloc_size := 32, bit_size := 0, rlw := 0 }

/-- Modelled from the spec and the header comment on `ewah_clear`: reset the
bitmap to the empty state (one zero marker, `bit_size` 0, active marker at 0)
without freeing or resizing the allocation. -/
def ewah_clear (B : EwahBitmap) : EwahBitmap :=
  { buffer := [0], alloc_size := B.alloc_size, bit_size := 0, rlw := 0 }

/-- The active marker word. -/
def activeRLW (B : EwahBitmap) : Nat := B.buffer.getD B.rlw 0

/-- Modelled from the spec: append one word, growing the capacity
geometrically (doubling, with a floor of 32 words) when needed. -/
def bufferPush (B : EwahBitmap) (w : Nat) : EwahBitmap :=
  { B with
    buffer := B.buffer ++ [w]
    alloc_size :=
      if B.buffer.length + 1 ≤ B.alloc_size then B.alloc_size
      else max 32 (2 * B.alloc_size) }

/-- Append a fresh marker word and make it the active marker. -/
def bufferPushRLW (B : EwahBitmap) (w : Nat) : EwahBitmap :=
  { bufferPush B w with rlw := B.buffer.length }

/-- Overwrite the active marker word. -/
def setRLW (B : EwahBitmap) (m : Nat) : EwahBitmap :=
  { B with buffer := B.buffer.set B.rlw m }

/-- Fuel-driven marker spill loop (the fuel dominates the word count, so the
recursion is structural). -/
def addEmptyRunsGo (v : Bool) : Nat → EwahBitmap → Nat → Nat → EwahBitmap × Nat
  | _, B, 0, added => (B, added)
  | 0, B, _ + 1, added => (B, added)
  | fuel + 1, B, n + 1, added =>
    addEmptyRunsGo v fuel (bufferPushRLW B (mkRLW v (min (n + 1) maxRun) 0))
      (n + 1 - min (n + 1) maxRun) (added + 1)

/-- Modelled from the spec: spill a run of `n` clean words of value `v` into
freshly pushed markers, at most `maxRun` words per marker.  Returns the
updated bitmap and the count of words appended to the structure. -/
def addEmptyRuns (v : Bool) (B : EwahBitmap) (n added : Nat) : EwahBitmap × Nat :=
  addEmptyRunsGo v n B n added

theorem addEmptyRunsGo_congr (v : Bool) (f1 : Nat) :
    ∀ (f2 : Nat) (B : EwahBitmap) (n added : Nat), n ≤ f1 → n ≤ f2 →
      addEmptyRunsGo v f1 B n added = addEmptyRunsGo v f2 B n added := by
  induction f1 with
  | zero =>
    intro f2 B n added h1 _
    cases n with
    | zero => cases f2 <;> rfl
    | succ k => omega
  | succ f1 ih =>
    intro f2 B n added h1 h2
    cases n with
    | zero => cases f2 <;> rfl
    | succ k =>
      cases f2 with
      | zero => omega
      | succ f2 =>
        simp only [addEmptyRunsGo]
        apply ih
        · simp only [maxRun]; omega
        · simp only [maxRun]; omega

theorem addEmptyRuns_zero (v : Bool) (B : EwahBitmap) (added : Nat) :
    addEmptyRuns v B 0 added = (B, added) := rfl

theorem addEmptyRuns_succ (v : Bool) (B : EwahBitmap) (n added : Nat) (hn : n ≠ 0) :
    addEmptyRuns v B n added =
      addEmptyRuns v (bufferPushRLW B (mkRLW v (min n maxRun) 0))
        (n - min n maxRun) (added + 1) := by
  cases n with
  | zero => exact absurd rfl hn
  | succ k =>
    show addEmptyRunsGo v (k + 1) B (k + 1) added = _
    simp only [addEmptyRunsGo]
    apply addEmptyRunsGo_congr
    · simp only [maxRun]; omega
    · exact le_refl _

/-- Modelled from the spec: `ewah_add_empty_words` extends the bit string by
`n` clean words of value `v`.  If the active marker has no literals and its
run bit matches `v` (or its run is empty), its run length is increased up to
the 32-bit saturation limit and the remainder spills into fresh markers;
otherwise a fresh marker is pushed.  `bit_size` grows by `64 * n` and the
number of words appended is returned. -/
def ewah_add_empty_words (B : EwahBitmap) (v : Bool) (n : Nat) : EwahBitmap × Nat :=
  if n = 0 then (B, 0)
  else
    let m := activeRLW B
    let B' := { B with bit_size := B.bit_size + 64 * n }
    if rlwLitCount m = 0 ∧ (rlwRunBit m = v ∨ rlwRunLen m = 0) then
      let can := min n (maxRun - rlwRunLen m)
      addEmptyRuns v (setRLW B' (mkRLW v (rlwRunLen m + can) 0)) (n - can) 0
    else
      addEmptyRuns v B' n 0

/-- Modelled from the spec: append one literal word to the active marker,
pushing a fresh marker first when the 31-bit literal count is saturated.
Does not touch `bit_size` (callers account for it). -/
def ewah_add_literal (B : EwahBitmap) (w : Nat) : EwahBitmap :=
  let B' := if rlwLitCount (activeRLW B) = maxLit then bufferPushRLW B 0 else B
  let m := activeRLW B'
  bufferPush (setRLW B' (mkRLW (rlwRunBit m) (rlwRunLen m) (rlwLitCount m + 1))) w

/-- A literal word as copied by `ewah_add_dirty_words`: read as a 64-bit
word, optionally bitwise-negated. -/
def dirtyWord (neg : Bool) (w : Nat) : Nat :=
  if neg then (w % wordMax) ^^^ allOnes else w % wordMax

/-- Modelled from the spec: `ewah_add_dirty_words` appends the given literal
words one by one (optionally negated during the copy), sealing the active
marker and opening a fresh one whenever its literal count would overflow
31 bits, and growing `bit_size` by 64 per word. -/
def ewah_add_dirty_words (B : EwahBitmap) (ws : List Nat) (neg : Bool) : EwahBitmap :=
  match ws with
  | [] => B
  | w :: rest =>
    ewah_add_dirty_words
      { ewah_add_literal B (dirtyWord neg w) with bit_size := B.bit_size + 64 } rest neg

/-- Modelled from the spec: `ewah_set` sets bit `i`.  Positions strictly
below `bit_size - 1` violate the monotone-set contract and are detected
(`none` stands for the assertion firing).  Otherwise the bit lands `dist`
words past the current tail word: for positive `dist` the gap is filled with
`dist - 1` clean zero words and one literal holding only the new bit; for
`dist = 0` the bit is OR-ed into the tail literal if the active marker has
one, else a literal with that single bit is emitted.  `bit_size` becomes
`i + 1`. -/
def ewah_set (B : EwahBitmap) (i : Nat) : Option EwahBitmap :=
  if i + 1 < B.bit_size then none
  else
    let dist := i / 64 + 1 - (B.bit_size + 63) / 64
    let B' :=
      if dist > 0 then
        let B₁ := if dist > 1 then (ewah_add_empty_words B false (dist - 1)).1 else B
        ewah_add_literal B₁ (2 ^ (i % 64))
      else
        if rlwLitCount (activeRLW B) = 0 then
          ewah_add_literal B (2 ^ (i % 64))
        else
          let last := B.buffer.length - 1
          { B with buffer := B.buffer.set last (B.buffer.getD last 0 ||| 2 ^ (i % 64)) }
    some { B' with bit_size := i + 1 }

/-- The decoded word sequence of a compressed bitmap. -/
def ewahWords (B : EwahBitmap) : List Nat := decodeBuf B.buffer

/-- Bit `p` of the decoded content of a compressed bitmap (false past the
end of the decoded words). -/
def ewahGet (B : EwahBitmap) (p : Nat) : Bool :=
  ((decodeBuf B.buffer).getD (p / 64) 0).testBit (p % 64)

/-- Builder-state invariant: the buffer splits into complete blocks followed
by the active block, the active marker index `rlw` pointing at the final
marker whose literals end the buffer, and every buffer word fits in 64 bits. -/
def builderInv (B : EwahBitmap) : Bool :=
  decide (B.rlw < B.buffer.length) &&
  bufOK (B.buffer.take B.rlw) &&
  decide (B.buffer.length = B.rlw + 1 + rlwLitCount (B.buffer.getD B.rlw 0)) &&
  B.buffer.all (fun w => decide (w < wordMax))

theorem getD_append_cons (pre : List Nat) (x : Nat) (rest : List Nat) (d : Nat) :
    (pre ++ x :: rest).getD pre.length d = x := by
  rw [List.getD_append_right _ _ _ _ (le_refl _)]
  simp

theorem drop_append_cons (pre : List Nat) (x : Nat) (rest : List Nat) :
    (pre ++ x :: rest).drop (pre.length + 1) = rest := by
  rw [show pre.length + 1 = (pre ++ [x]).length by simp, show pre ++ x :: rest = (pre ++ [x]) ++ rest by simp]
  exact List.drop_left _ _

theorem set_append_cons (pre : List Nat) (x y : Nat) (rest : List Nat) :
    (pre ++ x :: rest).set pre.length y = pre ++ y :: rest := by
  rw [List.set_append, if_neg (by omega)]
  simp

/-- Unpack the builder invariant into the block decomposition of the buffer. -/
theorem builderInv_decomp (B : EwahBitmap) (h : builderInv B = true) :
    B.buffer = B.buffer.take B.rlw ++ activeRLW B :: B.buffer.drop (B.rlw + 1) ∧
    (B.buffer.take B.rlw).length = B.rlw ∧
    (B.buffer.drop (B.rlw + 1)).length = rlwLitCount (activeRLW B) ∧
    bufOK (B.buffer.take B.rlw) = true ∧
    (∀ w ∈ B.buffer, w < wordMax) := by
  rw [builderInv, Bool.and_eq_true, Bool.and_eq_true, Bool.and_eq_true,
    decide_eq_true_eq, decide_eq_true_eq] at h
  obtain ⟨⟨⟨hlt, hok⟩, hlen⟩, hall⟩ := h
  have htk : (B.buffer.take B.rlw).length = B.rlw := by
    rw [List.length_take]; omega
  refine ⟨?_, htk, ?_, hok, ?_⟩
  · conv_lhs => rw [← List.take_append_drop B.rlw B.buffer]
    rw [List.drop_eq_getElem_cons hlt]
    rw [activeRLW, List.getD_eq_getElem _ _ hlt]
  · rw [List.length_drop, activeRLW]; omega
  · intro w hw
    have := List.all_eq_true.mp hall w hw
    simpa using this

/-- The buffer of a builder state parses into complete blocks. -/
theorem builderInv_bufOK (B : EwahBitmap) (h : builderInv B = true) :
    bufOK B.buffer = true := by
  obtain ⟨hdec, htk, hlit, hok, _⟩ := builderInv_decomp B h
  rw [hdec]
  exact bufOK_append_block _ _ _ hok hlit

/-- The decoded words of a builder state: the complete blocks, then the run
and literals of the active block. -/
theorem builderInv_decode (B : EwahBitmap) (h : builderInv B = true) :
    decodeBuf B.buffer =
      decodeBuf (B.buffer.take B.rlw)
        ++ List.replicate (rlwRunLen (activeRLW B)) (cleanWord (rlwRunBit (activeRLW B)))
        ++ B.buffer.drop (B.rlw + 1) := by
  obtain ⟨hdec, htk, hlit, hok, _⟩ := builderInv_decomp B h
  conv_lhs => rw [hdec]
  rw [decodeBuf_append _ _ hok, decodeBuf_lastBlock _ _ hlit, List.append_assoc]

/-- Pushing a fresh marker with no literals onto a builder state. -/
theorem bufferPushRLW_spec (B : EwahBitmap) (v : Bool) (r : Nat)
    (h : builderInv B = true) (hr : r ≤ maxRun) :
    builderInv (bufferPushRLW B (mkRLW v r 0)) = true ∧
    decodeBuf (bufferPushRLW B (mkRLW v r 0)).buffer =
      decodeBuf B.buffer ++ List.replicate r (cleanWord v) ∧
    (bufferPushRLW B (mkRLW v r 0)).bit_size = B.bit_size := by
  obtain ⟨hdec, htk, hlit, hok, hall⟩ := builderInv_decomp B h
  have hokB : bufOK B.buffer = true := builderInv_bufOK B h
  have hmk : mkRLW v r 0 < wordMax := mkRLW_lt _ _ _ hr (by simp [maxLit])
  have hlc : rlwLitCount (mkRLW v r 0) = 0 := rlwLitCount_mkRLW _ _ _ hr (by simp [maxLit])
  have hrl : rlwRunLen (mkRLW v r 0) = r := rlwRunLen_mkRLW _ _ _ hr
  have hrb : rlwRunBit (mkRLW v r 0) = v := rlwRunBit_mkRLW _ _ _
  refine ⟨?_, ?_, rfl⟩
  · rw [builderInv]
    simp only [bufferPushRLW, bufferPush]
    rw [Bool.and_eq_true, Bool.and_eq_true, Bool.and_eq_true]
    refine ⟨⟨⟨?_, ?_⟩, ?_⟩, ?_⟩
    · simp
    · rw [List.take_left' rfl]
      exact hokB
    · rw [decide_eq_true_eq, getD_append_cons]
      simp [hlc]
    · rw [List.all_append, Bool.and_eq_true]
      constructor
      · rw [List.all_eq_true]
        intro w hw
        simpa using hall w hw
      · simp [hmk]
  · show decodeBuf (B.buffer ++ [mkRLW v r 0]) = _
    rw [decodeBuf_append _ _ hokB, decodeBuf_lastBlock _ [] (by simp [hlc])]
    rw [hrl, hrb]
    simp

/-- Spilling clean runs into fresh markers appends exactly the requested
words. -/
theorem addEmptyRuns_spec (v : Bool) (n : Nat) : ∀ (B : EwahBitmap) (added : Nat),
    builderInv B = true →
    builderInv (addEmptyRuns v B n added).1 = true ∧
    decodeBuf (addEmptyRuns v B n added).1.buffer =
      decodeBuf B.buffer ++ List.replicate n (cleanWord v) ∧
    (addEmptyRuns v B n added).1.bit_size = B.bit_size := by
  induction n using Nat.strong_induction_on with
  | _ n ih =>
    intro B added h
    by_cases hn : n = 0
    · subst hn
      rw [addEmptyRuns_zero]
      simp [h]
    · rw [addEmptyRuns_succ v B n added hn]
      have hmin : min n maxRun ≤ maxRun := Nat.min_le_right _ _
      obtain ⟨h1, h2, h3⟩ := bufferPushRLW_spec B v (min n maxRun) h hmin
      have hlt : n - min n maxRun < n := by
        have : 0 < min n maxRun := by simp [maxRun]; omega
        omega
      obtain ⟨g1, g2, g3⟩ := ih (n - min n maxRun) hlt _ (added + 1) h1
      refine ⟨g1, ?_, by rw [g3, h3]⟩
      rw [g2, h2, List.append_assoc, ← List.replicate_add]
      congr 2
      omega

/-- Correctness of `ewah_add_empty_words`: the builder invariant is kept, the
decoded content grows by exactly `n` clean words (counts past the 32-bit
limit spill into fresh markers instead of overflowing), and `bit_size` grows
by `64 * n`. -/
theorem ewah_add_empty_words_spec (B : EwahBitmap) (v : Bool) (n : Nat)
    (h : builderInv B = true) :
    builderInv (ewah_add_empty_words B v n).1 = true ∧
    decodeBuf (ewah_add_empty_words B v n).1.buffer =
      decodeBuf B.buffer ++ List.replicate n (cleanWord v) ∧
    (ewah_add_empty_words B v n).1.bit_size = B.bit_size + 64 * n := by
  by_cases hn : n = 0
  · subst hn
    rw [ewah_add_empty_words]
    simp [h]
  · rw [ewah_add_empty_words, if_neg hn]
    obtain ⟨hdec, htk, hlit, hok, hall⟩ := builderInv_decomp B h
    set m := activeRLW B with hm
    set pre := B.buffer.take B.rlw with hpre
    set lits := B.buffer.drop (B.rlw + 1) with hlitsdef
    set B' : EwahBitmap := { B with bit_size := B.bit_size + 64 * n } with hB'
    have hinvB' : builderInv B' = true := h
    by_cases hcond : rlwLitCount m = 0 ∧ (rlwRunBit m = v ∨ rlwRunLen m = 0)
    · rw [if_pos hcond]
      obtain ⟨hL0, hbv⟩ := hcond
      have hlits : lits = [] := by
        have h0 : lits.length = 0 := by rw [hlit]; exact hL0
        exact List.eq_nil_of_length_eq_zero h0
      set can := min n (maxRun - rlwRunLen m) with hcan
      have hrcan : rlwRunLen m + can ≤ maxRun := by
        have := rlwRunLen_le_maxRun m
        omega
      set mk := mkRLW v (rlwRunLen m + can) 0 with hmk
      have hmkb : mk < wordMax := mkRLW_lt _ _ _ hrcan (by simp [maxLit])
      have hmkL : rlwLitCount mk = 0 := rlwLitCount_mkRLW _ _ _ hrcan (by simp [maxLit])
      have hmkR : rlwRunLen mk = rlwRunLen m + can := rlwRunLen_mkRLW _ _ _ hrcan
      have hmkB : rlwRunBit mk = v := rlwRunBit_mkRLW _ _ _
      have hsetbuf : (setRLW B' mk).buffer = pre ++ mk :: [] := by
        show B.buffer.set B.rlw mk = _
        conv_lhs => rw [hdec, hlits]
        rw [← htk, set_append_cons]
      have hpremem : ∀ w ∈ pre, w < wordMax := by
        intro w hw
        exact hall w (List.mem_of_mem_take hw)
      have hinvset : builderInv (setRLW B' mk) = true := by
        rw [builderInv, Bool.and_eq_true, Bool.and_eq_true, Bool.and_eq_true]
        have hlen : (setRLW B' mk).buffer.length = B.rlw + 1 := by
          rw [hsetbuf]
          simp [htk]
        have hrlwv : (setRLW B' mk).rlw = B.rlw := rfl
        refine ⟨⟨⟨?_, ?_⟩, ?_⟩, ?_⟩
        · rw [decide_eq_true_eq, hlen, hrlwv]
          omega
        · rw [hrlwv, hsetbuf, ← htk, List.take_left]
          exact hok
        · rw [decide_eq_true_eq, hlen, hrlwv, hsetbuf, ← htk, getD_append_cons, hmkL]
        · rw [List.all_eq_true]
          intro w hw
          rw [hsetbuf, List.mem_append] at hw
          rcases hw with hw | hw
          · simpa using hpremem w hw
          · simp only [List.mem_cons, List.not_mem_nil, or_false] at hw
            subst hw
            simpa using hmkb
      obtain ⟨g1, g2, g3⟩ := addEmptyRuns_spec v (n - can) (setRLW B' mk) 0 hinvset
      refine ⟨g1, ?_, ?_⟩
      · rw [g2]
        have hdecset : decodeBuf (setRLW B' mk).buffer =
            decodeBuf pre ++ List.replicate (rlwRunLen m + can) (cleanWord v) := by
          rw [hsetbuf, decodeBuf_append _ _ hok,
            decodeBuf_lastBlock _ [] (by simp [hmkL]), hmkR, hmkB]
          simp
        rw [hdecset, builderInv_decode B h, ← hm, ← hpre, ← hlitsdef, hlits]
        have hrep : List.replicate (rlwRunLen m) (cleanWord (rlwRunBit m))
            = List.replicate (rlwRunLen m) (cleanWord v) := by
          rcases hbv with hbv | hbv
          · rw [hbv]
          · rw [hbv]; simp
        rw [hrep]
        simp only [List.append_nil, List.append_assoc, ← List.replicate_add]
        congr 2
        have : can ≤ n := Nat.min_le_left _ _
        omega
      · rw [g3]
        rfl
    · rw [if_neg hcond]
      obtain ⟨g1, g2, g3⟩ := addEmptyRuns_spec v n B' 0 hinvB'
      exact ⟨g1, g2, by rw [g3]⟩

theorem dirtyWord_lt (neg : Bool) (w : Nat) : dirtyWord neg w < wordMax := by
  have hmod : w % wordMax < wordMax := Nat.mod_lt _ (by simp [wordMax])
  cases neg with
  | false => simpa [dirtyWord] using hmod
  | true =>
    rw [dirtyWord, if_pos rfl]
    have h1 : w % wordMax < 2 ^ 64 := by
      simpa [wordMax, show (18446744073709551616 : Nat) = 2 ^ 64 by norm_num] using hmod
    have h2 : allOnes < 2 ^ 64 := by simp [allOnes]
    have := Nat.xor_lt_two_pow h1 h2
    simpa [wordMax, show (18446744073709551616 : Nat) = 2 ^ 64 by norm_num] using this

/-- Correctness of `ewah_add_literal`: the builder invariant is kept and the
decoded content grows by exactly the given literal word; a saturated literal
count spills into a fresh marker. -/
theorem ewah_add_literal_spec (B : EwahBitmap) (w : Nat)
    (h : builderInv B = true) (hw : w < wordMax) :
    builderInv (ewah_add_literal B w) = true ∧
    decodeBuf (ewah_add_literal B w).buffer = decodeBuf B.buffer ++ [w] ∧
    (ewah_add_literal B w).bit_size = B.bit_size := by
  have core : ∀ (C : EwahBitmap), builderInv C = true →
      rlwLitCount (activeRLW C) < maxLit →
      builderInv (bufferPush (setRLW C (mkRLW (rlwRunBit (activeRLW C))
          (rlwRunLen (activeRLW C)) (rlwLitCount (activeRLW C) + 1))) w) = true ∧
      decodeBuf (bufferPush (setRLW C (mkRLW (rlwRunBit (activeRLW C))
          (rlwRunLen (activeRLW C)) (rlwLitCount (activeRLW C) + 1))) w).buffer =
        decodeBuf C.buffer ++ [w] ∧
      (bufferPush (setRLW C (mkRLW (rlwRunBit (activeRLW C))
          (rlwRunLen (activeRLW C)) (rlwLitCount (activeRLW C) + 1))) w).bit_size =
        C.bit_size := by
    intro C hC hsat
    obtain ⟨hdec, htk, hlit, hok, hall⟩ := builderInv_decomp C hC
    set m := activeRLW C with hm
    set pre := C.buffer.take C.rlw with hpre
    set lits := C.buffer.drop (C.rlw + 1) with hlitsdef
    have hR : rlwRunLen m ≤ maxRun := rlwRunLen_le_maxRun m
    have hL1 : rlwLitCount m + 1 ≤ maxLit := hsat
    set mk := mkRLW (rlwRunBit m) (rlwRunLen m) (rlwLitCount m + 1) with hmk
    have hmkb : mk < wordMax := mkRLW_lt _ _ _ hR hL1
    have hmkL : rlwLitCount mk = rlwLitCount m + 1 := rlwLitCount_mkRLW _ _ _ hR hL1
    have hmkR : rlwRunLen mk = rlwRunLen m := rlwRunLen_mkRLW _ _ _ hR
    have hmkB : rlwRunBit mk = rlwRunBit m := rlwRunBit_mkRLW _ _ _
    have hsetbuf : (bufferPush (setRLW C mk) w).buffer = pre ++ mk :: (lits ++ [w]) := by
      show (C.buffer.set C.rlw mk) ++ [w] = _
      conv_lhs => rw [hdec]
      rw [← htk, set_append_cons]
      simp
    have hpremem : ∀ x ∈ pre, x < wordMax := fun x hx => hall x (List.mem_of_mem_take hx)
    have hlitmem : ∀ x ∈ lits, x < wordMax := fun x hx => hall x (List.mem_of_mem_drop hx)
    refine ⟨?_, ?_, rfl⟩
    · rw [builderInv, Bool.and_eq_true, Bool.and_eq_true, Bool.and_eq_true]
      have hrlwv : (bufferPush (setRLW C mk) w).rlw = C.rlw := rfl
      have hlen : (bufferPush (setRLW C mk) w).buffer.length
          = C.rlw + 1 + (rlwLitCount m + 1) := by
        rw [hsetbuf]
        simp [htk, hlit]
        omega
      refine ⟨⟨⟨?_, ?_⟩, ?_⟩, ?_⟩
      · rw [decide_eq_true_eq, hlen, hrlwv]
        omega
      · rw [hrlwv, hsetbuf, ← htk, List.take_left]
        exact hok
      · rw [decide_eq_true_eq, hlen, hrlwv, hsetbuf, ← htk, getD_append_cons, hmkL, htk]
      · rw [List.all_eq_true]
        intro x hx
        rw [hsetbuf, List.mem_append, List.mem_cons, List.mem_append] at hx
        rcases hx with hx | hx | hx | hx
        · simpa using hpremem x hx
        · subst hx; simpa using hmkb
        · simpa using hlitmem x hx
        · simp only [List.mem_cons, List.not_mem_nil, or_false] at hx
          subst hx
          simpa using hw
    · rw [hsetbuf, decodeBuf_append _ _ hok,
        decodeBuf_lastBlock _ _ (by simp [hmkL, ← hlit]), hmkR, hmkB]
      rw [builderInv_decode C hC, ← hm, ← hpre, ← hlitsdef]
      simp [List.append_assoc]
  rw [ewah_add_literal]
  by_cases hsat : rlwLitCount (activeRLW B) = maxLit
  · rw [if_pos hsat]
    have h0 : (0 : Nat) = mkRLW false 0 0 := by simp [mkRLW]
    have hpush := bufferPushRLW_spec B false 0 h (by simp [maxRun])
    rw [← h0] at hpush
    obtain ⟨p1, p2, p3⟩ := hpush
    have hact : rlwLitCount (activeRLW (bufferPushRLW B 0)) < maxLit := by
      have : activeRLW (bufferPushRLW B 0) = 0 := by
        show (B.buffer ++ [0]).getD B.buffer.length 0 = 0
        rw [getD_append_cons]
      rw [this]
      simp [rlwLitCount, maxLit]
    obtain ⟨c1, c2, c3⟩ := core (bufferPushRLW B 0) p1 hact
    refine ⟨c1, ?_, by rw [c3, p3]⟩
    rw [c2, p2]
    simp
  · rw [if_neg hsat]
    have hact : rlwLitCount (activeRLW B) < maxLit := by
      have := rlwLitCount_le_maxLit (activeRLW B)
      omega
    exact core B h hact

/-- Correctness of `ewah_add_dirty_words`: the builder invariant is kept, the
decoded content grows by exactly the copied (possibly negated) literal words,
and `bit_size` grows by 64 per word. -/
theorem ewah_add_dirty_words_spec (ws : List Nat) : ∀ (B : EwahBitmap) (neg : Bool),
    builderInv B = true →
    builderInv (ewah_add_dirty_words B ws neg) = true ∧
    decodeBuf (ewah_add_dirty_words B ws neg).buffer =
      decodeBuf B.buffer ++ ws.map (dirtyWord neg) ∧
    (ewah_add_dirty_words B ws neg).bit_size = B.bit_size + 64 * ws.length := by
  induction ws with
  | nil =>
    intro B neg h
    rw [ewah_add_dirty_words]
    simpa using h
  | cons w rest ih =>
    intro B neg h
    rw [ewah_add_dirty_words]
    obtain ⟨a1, a2, a3⟩ := ewah_add_literal_spec B (dirtyWord neg w) h (dirtyWord_lt _ _)
    set A : EwahBitmap :=
      { ewah_add_literal B (dirtyWord neg w) with bit_size := B.bit_size + 64 } with hA
    have hinvA : builderInv A = true := a1
    have hdecA : decodeBuf A.buffer = decodeBuf B.buffer ++ [dirtyWord neg w] := a2
    obtain ⟨g1, g2, g3⟩ := ih A neg hinvA
    refine ⟨g1, ?_, ?_⟩
    · rw [g2, hdecA]
      simp
    · rw [g3]
      show B.bit_size + 64 + 64 * rest.length = B.bit_size + 64 * (rest.length + 1)
      ring

/-- Fuel-driven loop of the uncompressed-to-compressed conversion. -/
def buildFromWordsGo : Nat → EwahBitmap → List Nat → EwahBitmap
  | _, B, [] => B
  | 0, B, _ :: _ => B
  | fuel + 1, B, w :: rest =>
    if w = 0 ∨ w = allOnes then
      buildFromWordsGo fuel
        (ewah_add_empty_words B (decide (w ≠ 0))
          ((w :: rest).takeWhile (fun x => x == w)).length).1
        ((w :: rest).dropWhile (fun x => x == w))
    else
      buildFromWordsGo fuel (ewah_add_dirty_words B [w] false) rest

/-- Modelled from the spec: scan the uncompressed words left to right,
collapsing maximal runs of all-zero or all-one words into
`ewah_add_empty_words` and flushing dissimilar words through
`ewah_add_dirty_words`. -/
def buildFromWords (B : EwahBitmap) (ws : List Nat) : EwahBitmap :=
  buildFromWordsGo ws.length B ws

theorem dropWhile_cons_self (w : Nat) (rest : List Nat) :
    (w :: rest).dropWhile (fun x => x == w) = rest.dropWhile (fun x => x == w) := by
  rw [List.dropWhile_cons]
  simp

theorem length_dropWhile_cons_self (w : Nat) (rest : List Nat) :
    ((w :: rest).dropWhile (fun x => x == w)).length ≤ rest.length := by
  rw [dropWhile_cons_self]
  exact (List.dropWhile_sublist _).length_le

theorem buildFromWordsGo_congr (f1 : Nat) : ∀ (f2 : Nat) (B : EwahBitmap) (l : List Nat),
    l.length ≤ f1 → l.length ≤ f2 → buildFromWordsGo f1 B l = buildFromWordsGo f2 B l := by
  induction f1 with
  | zero =>
    intro f2 B l h1 _
    cases l with
    | nil => cases f2 <;> rfl
    | cons w rest => simp at h1
  | succ f1 ih =>
    intro f2 B l h1 h2
    cases l with
    | nil => cases f2 <;> rfl
    | cons w rest =>
      cases f2 with
      | zero => simp at h2
      | succ f2 =>
        simp only [buildFromWordsGo]
        have hdk := length_dropWhile_cons_self w rest
        simp only [List.length_cons] at h1 h2
        split
        · exact ih f2 _ _ (by omega) (by omega)
        · exact ih f2 _ _ (by omega) (by omega)

theorem buildFromWords_nil (B : EwahBitmap) : buildFromWords B [] = B := rfl

theorem buildFromWords_cons_clean (B : EwahBitmap) (w : Nat) (rest : List Nat)
    (hw : w = 0 ∨ w = allOnes) :
    buildFromWords B (w :: rest) =
      buildFromWords
        (ewah_add_empty_words B (decide (w ≠ 0))
          ((w :: rest).takeWhile (fun x => x == w)).length).1
        ((w :: rest).dropWhile (fun x => x == w)) := by
  show buildFromWordsGo (rest.length + 1) B (w :: rest) = _
  simp only [buildFromWordsGo, if_pos hw]
  apply buildFromWordsGo_congr
  · exact length_dropWhile_cons_self w rest
  · exact le_refl _

theorem buildFromWords_cons_dirty (B : EwahBitmap) (w : Nat) (rest : List Nat)
    (hw : ¬(w = 0 ∨ w = allOnes)) :
    buildFromWords B (w :: rest) =
      buildFromWords (ewah_add_dirty_words B [w] false) rest := by
  show buildFromWordsGo (rest.length + 1) B (w :: rest) = _
  simp only [buildFromWordsGo, if_neg hw]
  rfl

/-- Correctness of the run-collapsing conversion loop: starting from a valid
builder state, it appends exactly the scanned words to the decoded content
and accounts 64 bits per word. -/
theorem buildFromWords_spec (n : Nat) : ∀ (ws : List Nat), ws.length ≤ n →
    ∀ B : EwahBitmap, builderInv B = true → (∀ w ∈ ws, w < wordMax) →
    builderInv (buildFromWords B ws) = true ∧
    decodeBuf (buildFromWords B ws).buffer = decodeBuf B.buffer ++ ws ∧
    (buildFromWords B ws).bit_size = B.bit_size + 64 * ws.length := by
  induction n with
  | zero =>
    intro ws hlen B h _
    have : ws = [] := List.eq_nil_of_length_eq_zero (by omega)
    subst this
    rw [buildFromWords_nil]
    simp [h]
  | succ n ih =>
    intro ws hlen B h hb
    cases ws with
    | nil =>
      rw [buildFromWords_nil]
      simp [h]
    | cons w rest =>
      by_cases hw : w = 0 ∨ w = allOnes
      · rw [buildFromWords_cons_clean B w rest hw]
        set tk := (w :: rest).takeWhile (fun x => x == w) with htk
        set dk := (w :: rest).dropWhile (fun x => x == w) with hdk
        have htkdk : tk ++ dk = w :: rest := List.takeWhile_append_dropWhile _ _
        have htkrep : tk = List.replicate tk.length w := by
          rw [List.eq_replicate_iff]
          refine ⟨rfl, ?_⟩
          intro x hx
          have := List.mem_takeWhile_imp hx
          simpa using this
        have hclean : cleanWord (decide (w ≠ 0)) = w := by
          rcases hw with hw | hw
          · subst hw; simp [cleanWord]
          · subst hw; simp [cleanWord, allOnes]
        obtain ⟨a1, a2, a3⟩ := ewah_add_empty_words_spec B (decide (w ≠ 0)) tk.length h
        have hdklen : dk.length ≤ n := by
          have h1 : dk.length ≤ rest.length := by
            rw [hdk]
            exact length_dropWhile_cons_self w rest
          simp only [List.length_cons] at hlen
          omega
        have hdkmem : ∀ x ∈ dk, x < wordMax := by
          intro x hx
          exact hb x ((List.dropWhile_sublist _).subset hx)
        obtain ⟨g1, g2, g3⟩ := ih dk hdklen _ a1 hdkmem
        refine ⟨g1, ?_, ?_⟩
        · rw [g2, a2, hclean, ← htkrep, List.append_assoc, htkdk]
        · rw [g3, a3]
          have : tk.length + dk.length = rest.length + 1 := by
            have := congrArg List.length htkdk
            simpa using this
          simp only [List.length_cons]
          omega
      · rw [buildFromWords_cons_dirty B w rest hw]
        have hwlt : w < wordMax := hb w (List.mem_cons_self w rest)
        obtain ⟨a1, a2, a3⟩ := ewah_add_dirty_words_spec [w] B false h
        have hrestlen : rest.length ≤ n := by
          simp only [List.length_cons] at hlen
          omega
        have hrestmem : ∀ x ∈ rest, x < wordMax := by
          intro x hx
          exact hb x (List.mem_cons_of_mem w hx)
        obtain ⟨g1, g2, g3⟩ := ih rest hrestlen _ a1 hrestmem
        refine ⟨g1, ?_, ?_⟩
        · rw [g2, a2]
          have : dirtyWord false w = w := by
            simp [dirtyWord, Nat.mod_eq_of_lt hwlt]
          simp [this]
        · rw [g3, a3]
          simp only [List.length_cons, List.length_nil]
          omega

/-- The uncompressed bitmap: `struct bitmap`.  `words` is the used word
array, `word_alloc` its capacity in words. -/
structure Bitmap where
  words : List Nat
  word_alloc : Nat
deriving Repr, DecidableEq

/-- Modelled from the spec: a freshly constructed uncompressed bitmap. -/
def bitmap_new : Bitmap := { words := [], word_alloc := 0 }

/-- Modelled from the spec: read bit `pos` of an uncompressed bitmap; reads
past the current capacity return false. -/
def bitmap_get (bm : Bitmap) (pos : Nat) : Bool :=
  (bm.words.getD (pos / 64) 0).testBit (pos % 64)

/-- Modelled from the spec: compress an uncompressed bitmap by scanning its
words left to right through the shared builder. -/
def bitmap_to_ewah (bm : Bitmap) : EwahBitmap :=
  buildFromWords ewah_new bm.words

theorem builderInv_ewah_new : builderInv ewah_new = true := by decide

theorem decodeBuf_ewah_new : decodeBuf ewah_new.buffer = [] := by decide

/-- The compression of an uncompressed bitmap decodes to exactly its words. -/
theorem bitmap_to_ewah_spec (bm : Bitmap) (hb : ∀ w ∈ bm.words, w < wordMax) :
    builderInv (bitmap_to_ewah bm) = true ∧
    decodeBuf (bitmap_to_ewah bm).buffer = bm.words ∧
    (bitmap_to_ewah bm).bit_size = 64 * bm.words.length := by
  obtain ⟨g1, g2, g3⟩ := buildFromWords_spec bm.words.length bm.words (le_refl _)
    ewah_new builderInv_ewah_new hb
  refine ⟨g1, ?_, ?_⟩
  · rw [bitmap_to_ewah, g2, decodeBuf_ewah_new, List.nil_append]
  · rw [bitmap_to_ewah, g3]
    show ewah_new.bit_size + 64 * bm.words.length = 64 * bm.words.length
    rw [show ewah_new.bit_size = 0 from rfl]
    omega

/-- Word-iterator state: `struct ewah_iterator`.  `compressed` and `literals`
hold the residual clean-word and literal counts of the current block, `rl`
and `lw` the raw counters loaded from the marker, `b` its run bit, and
`pointer` the index of the next literal (or marker) word. -/
structure EwahIterator where
  buffer : List Nat
  buffer_size : Nat
  pointer : Nat
  compressed : Nat
  literals : Nat
  rl : Nat
  lw : Nat
  b : Bool
deriving Repr, DecidableEq

/-- Modelled from the spec: position the cursor at the first marker and load
its counters. -/
def ewah_iterator_init (parent : EwahBitmap) : EwahIterator :=
  match parent.buffer with
  | [] =>
    { buffer := []
      buffer_size := 0
      pointer := 0
      compressed := 0
      literals := 0
      rl := 0
      lw := 0
      b := false }
  | m :: rest =>
    { buffer := m :: rest
      buffer_size := (m :: rest).length
      pointer := 1
      compressed := rlwRunLen m
      literals := rlwLitCount m
      rl := rlwRunLen m
      lw := rlwLitCount m
      b := rlwRunBit m }

/-- Modelled from the spec: yield the next uncompressed word.  While clean
words remain, emit the fill word; then emit pending literals; then load the
next marker and continue; return `none` when the buffer is exhausted. -/
def ewah_iterator_next (it : EwahIterator) : Option (Nat × EwahIterator) :=
  if it.compressed > 0 then
    some (cleanWord it.b, { it with compressed := it.compressed - 1 })
  else if it.literals > 0 then
    some (it.buffer.getD it.pointer 0,
      { it with pointer := it.pointer + 1, literals := it.literals - 1 })
  else if it.pointer < it.buffer_size then
    let m := it.buffer.getD it.pointer 0
    ewah_iterator_next
      { it with
        pointer := it.pointer + 1
        compressed := rlwRunLen m
        literals := rlwLitCount m
        rl := rlwRunLen m
        lw := rlwLitCount m
        b := rlwRunBit m }
  else none
termination_by it.buffer_size - it.pointer
decreasing_by
  simp_wf
  omega

/-- Validity of a word-iterator state over its borrowed buffer. -/
def ItOK (it : EwahIterator) : Prop :=
  it.buffer_size = it.buffer.length ∧
  it.pointer + it.literals ≤ it.buffer.length ∧
  bufOK (it.buffer.drop (it.pointer + it.literals)) = true

/-- The words the iterator has yet to yield. -/
def iterRemaining (it : EwahIterator) : List Nat :=
  List.replicate it.compressed (cleanWord it.b)
    ++ (it.buffer.drop it.pointer).take it.literals
    ++ decodeBuf (it.buffer.drop (it.pointer + it.literals))

/-- One-step simulation: from a valid state the iterator yields exactly the
head of its remaining words, and stops exactly when none remain. -/
theorem ewah_iterator_next_spec : ∀ (k : Nat) (it : EwahIterator),
    it.buffer_size - it.pointer ≤ k → ItOK it →
    (iterRemaining it = [] → ewah_iterator_next it = none) ∧
    (∀ w rest, iterRemaining it = w :: rest →
      ∃ it', ewah_iterator_next it = some (w, it') ∧ ItOK it' ∧
        iterRemaining it' = rest ∧ it'.buffer = it.buffer) := by
  intro k
  induction k with
  | zero =>
    intro it hk hok
    obtain ⟨h1, h2, h3⟩ := hok
    by_cases hc : it.compressed > 0
    · constructor
      · intro hrem
        rw [iterRemaining] at hrem
        have := congrArg List.length hrem
        simp at this
        omega
      · intro w rest hrem
        rw [iterRemaining] at hrem
        rw [show it.compressed = it.compressed - 1 + 1 by omega, List.replicate_succ,
          List.cons_append, List.cons_append] at hrem
        rw [List.cons.injEq] at hrem
        obtain ⟨hw, hrest⟩ := hrem
        refine ⟨{ it with compressed := it.compressed - 1 }, ?_, ⟨h1, h2, h3⟩, ?_, rfl⟩
        · rw [ewah_iterator_next.eq_def, if_pos hc, hw]
        · rw [iterRemaining]
          exact hrest
    · -- out of fuel for marker loading, but the first two branches still work
      by_cases hl : it.literals > 0
      · have hplt : it.pointer < it.buffer.length := by omega
        have hdropc : it.buffer.drop it.pointer =
            it.buffer.getD it.pointer 0 :: it.buffer.drop (it.pointer + 1) := by
          rw [List.getD_eq_getElem _ _ hplt]
          exact List.drop_eq_getElem_cons hplt
        have hrem : iterRemaining it =
            it.buffer.getD it.pointer 0 ::
              ((it.buffer.drop (it.pointer + 1)).take (it.literals - 1)
                ++ decodeBuf (it.buffer.drop (it.pointer + 1 + (it.literals - 1)))) := by
          rw [iterRemaining]
          rw [show it.compressed = 0 by omega]
          rw [hdropc, show it.literals = it.literals - 1 + 1 by omega,
            List.take_succ_cons]
          rw [show it.pointer + (it.literals - 1 + 1) = it.pointer + 1 + (it.literals - 1) by omega]
          simp

        constructor
        · intro hnil
          rw [hrem] at hnil
          exact absurd hnil (List.cons_ne_nil _ _)
        · intro w rest hr
          rw [hrem, List.cons.injEq] at hr
          obtain ⟨hw, hrest⟩ := hr
          refine ⟨{ it with pointer := it.pointer + 1, literals := it.literals - 1 },
            ?_, ?_, ?_, rfl⟩
          · rw [ewah_iterator_next.eq_def, if_neg (by omega), if_pos hl, hw]
          · refine ⟨h1, by simp; omega, ?_⟩
            show bufOK (it.buffer.drop (it.pointer + 1 + (it.literals - 1))) = true
            rw [show it.pointer + 1 + (it.literals - 1) = it.pointer + it.literals by omega]
            exact h3
          · rw [iterRemaining]
            rw [show it.compressed = 0 by omega]
            simp only [List.replicate_zero, List.nil_append]
            exact hrest
      · -- both counters empty: at fuel zero the pointer is at the end
        have hp : it.buffer_size ≤ it.pointer := by omega
        have hpge : it.buffer.length ≤ it.pointer := by omega
        have hdrop : it.buffer.drop (it.pointer + it.literals) = [] :=
          List.drop_eq_nil_of_le (by omega)
        have hrem : iterRemaining it = [] := by
          rw [iterRemaining, hdrop, decodeBuf_nil]
          rw [show it.compressed = 0 by omega, show it.literals = 0 by omega]
          simp
        constructor
        · intro _
          rw [ewah_iterator_next.eq_def, if_neg (by omega), if_neg (by omega), if_neg (by omega)]
        · intro w rest hr
          rw [hrem] at hr
          exact absurd hr.symm (List.cons_ne_nil _ _)
  | succ k ih =>
    intro it hk hok
    obtain ⟨h1, h2, h3⟩ := hok
    by_cases hc : it.compressed > 0
    · exact (by
        have := ih it
        -- replay the zero-fuel argument, which needs no fuel in this branch
        constructor
        · intro hrem
          rw [iterRemaining] at hrem
          have := congrArg List.length hrem
          simp at this
          omega
        · intro w rest hrem
          rw [iterRemaining] at hrem
          rw [show it.compressed = it.compressed - 1 + 1 by omega, List.replicate_succ,
            List.cons_append, List.cons_append] at hrem
          rw [List.cons.injEq] at hrem
          obtain ⟨hw, hrest⟩ := hrem
          refine ⟨{ it with compressed := it.compressed - 1 }, ?_, ⟨h1, h2, h3⟩, ?_, rfl⟩
          · rw [ewah_iterator_next.eq_def, if_pos hc, hw]
          · rw [iterRemaining]
            exact hrest)
    · by_cases hl : it.literals > 0
      · have hplt : it.pointer < it.buffer.length := by omega
        have hdropc : it.buffer.drop it.pointer =
            it.buffer.getD it.pointer 0 :: it.buffer.drop (it.pointer + 1) := by
          rw [List.getD_eq_getElem _ _ hplt]
          exact List.drop_eq_getElem_cons hplt
        have hrem : iterRemaining it =
            it.buffer.getD it.pointer 0 ::
              ((it.buffer.drop (it.pointer + 1)).take (it.literals - 1)
                ++ decodeBuf (it.buffer.drop (it.pointer + 1 + (it.literals - 1)))) := by
          rw [iterRemaining]
          rw [show it.compressed = 0 by omega]
          rw [hdropc, show it.literals = it.literals - 1 + 1 by omega,
            List.take_succ_cons]
          rw [show it.pointer + (it.literals - 1 + 1) = it.pointer + 1 + (it.literals - 1) by omega]
          simp
        constructor
        · intro hnil
          rw [hrem] at hnil
          exact absurd hnil (List.cons_ne_nil _ _)
        · intro w rest hr
          rw [hrem, List.cons.injEq] at hr
          obtain ⟨hw, hrest⟩ := hr
          refine ⟨{ it with pointer := it.pointer + 1, literals := it.literals - 1 },
            ?_, ?_, ?_, rfl⟩
          · rw [ewah_iterator_next.eq_def, if_neg (by omega), if_pos hl, hw]
          · refine ⟨h1, by simp; omega, ?_⟩
            show bufOK (it.buffer.drop (it.pointer + 1 + (it.literals - 1))) = true
            rw [show it.pointer + 1 + (it.literals - 1) = it.pointer + it.literals by omega]
            exact h3
          · rw [iterRemaining]
            rw [show it.compressed = 0 by omega]
            simp only [List.replicate_zero, List.nil_append]
            exact hrest
      · by_cases hp : it.pointer < it.buffer_size
        · -- load the next marker and recurse
          have hplt : it.pointer < it.buffer.length := by omega
          set m := it.buffer.getD it.pointer 0 with hmdef
          set it₂ : EwahIterator :=
            { it with
              pointer := it.pointer + 1
              compressed := rlwRunLen m
              literals := rlwLitCount m
              rl := rlwRunLen m
              lw := rlwLitCount m
              b := rlwRunBit m } with hit₂
          have hdropc : it.buffer.drop it.pointer = m :: it.buffer.drop (it.pointer + 1) := by
            rw [hmdef, List.getD_eq_getElem _ _ hplt]
            exact List.drop_eq_getElem_cons hplt
          have hokdrop : bufOK (it.buffer.drop it.pointer) = true := by
            have : it.pointer + it.literals = it.pointer := by omega
            rw [← this]
            exact h3
          rw [hdropc, bufOK_cons, Bool.and_eq_true, decide_eq_true_eq] at hokdrop
          obtain ⟨hL, hOK2⟩ := hokdrop
          have hdropdrop : (it.buffer.drop (it.pointer + 1)).drop (rlwLitCount m)
              = it.buffer.drop (it.pointer + 1 + rlwLitCount m) := by
            rw [List.drop_drop]
          have hok₂ : ItOK it₂ := by
            refine ⟨h1, ?_, ?_⟩
            · show it.pointer + 1 + rlwLitCount m ≤ it.buffer.length
              have : (it.buffer.drop (it.pointer + 1)).length = it.buffer.length - (it.pointer + 1) := by
                simp
              omega
            · show bufOK (it.buffer.drop (it.pointer + 1 + rlwLitCount m)) = true
              rw [← hdropdrop]
              exact hOK2
          have hremeq : iterRemaining it = iterRemaining it₂ := by
            rw [iterRemaining, iterRemaining]
            show List.replicate it.compressed (cleanWord it.b) ++ _ ++
              decodeBuf (it.buffer.drop (it.pointer + it.literals)) = _
            rw [show it.compressed = 0 by omega, show it.pointer + it.literals = it.pointer by omega]
            rw [show (it.buffer.drop it.pointer).take it.literals = [] by
              rw [show it.literals = 0 by omega]; rfl]
            rw [hdropc, decodeBuf_cons, hdropdrop]
            simp
          have hk₂ : it₂.buffer_size - it₂.pointer ≤ k := by
            show it.buffer_size - (it.pointer + 1) ≤ k
            omega
          obtain ⟨s1, s2⟩ := ih it₂ hk₂ hok₂
          have hunfold : ewah_iterator_next it = ewah_iterator_next it₂ := by
            conv_lhs => rw [ewah_iterator_next.eq_def]
            rw [if_neg (by omega), if_neg (by omega), if_pos hp]
          constructor
          · intro hrem
            rw [hunfold]
            exact s1 (by rw [← hremeq]; exact hrem)
          · intro w rest hr
            rw [hremeq] at hr
            obtain ⟨it', g1, g2, g3, g4⟩ := s2 w rest hr
            exact ⟨it', by rw [hunfold]; exact g1, g2, g3, g4⟩
        · have hpge : it.buffer.length ≤ it.pointer := by omega
          have hdrop : it.buffer.drop (it.pointer + it.literals) = [] :=
            List.drop_eq_nil_of_le (by omega)
          have hrem : iterRemaining it = [] := by
            rw [iterRemaining, hdrop, decodeBuf_nil]
            rw [show it.compressed = 0 by omega, show it.literals = 0 by omega]
            simp
          constructor
          · intro _
            rw [ewah_iterator_next.eq_def, if_neg (by omega), if_neg (by omega), if_neg (by omega)]
          · intro w rest hr
            rw [hrem] at hr
            exact absurd hr.symm (List.cons_ne_nil _ _)

/-- Drive the word iterator for at most `fuel` yields; the Boolean records
whether `ewah_iterator_next` was observed returning no word. -/
def iterRun : Nat → EwahIterator → List Nat × Bool
  | 0, _ => ([], false)
  | fuel + 1, it =>
    match ewah_iterator_next it with
    | none => ([], true)
    | some (w, it') =>
      let r := iterRun fuel it'
      (w :: r.1, r.2)

/-- Driving a valid iterator yields exactly its remaining words. -/
theorem iterRun_spec : ∀ (fuel : Nat) (it : EwahIterator), ItOK it →
    iterRun fuel it =
      ((iterRemaining it).take fuel, decide ((iterRemaining it).length < fuel)) := by
  intro fuel
  induction fuel with
  | zero =>
    intro it _
    simp [iterRun]
  | succ fuel ih =>
    intro it hok
    obtain ⟨s1, s2⟩ := ewah_iterator_next_spec (it.buffer_size - it.pointer) it (le_refl _) hok
    cases hrem : iterRemaining it with
    | nil =>
      rw [iterRun, s1 hrem]
      simp
    | cons w rest =>
      obtain ⟨it', g1, g2, g3, _⟩ := s2 w rest hrem
      rw [iterRun, g1]
      simp only [ih it' g2, g3]
      simp

/-- Initializing the iterator on a parseable buffer leaves exactly the
decoded words to be yielded. -/
theorem ewah_iterator_init_spec (B : EwahBitmap) (h : bufOK B.buffer = true) :
    ItOK (ewah_iterator_init B) ∧
    iterRemaining (ewah_iterator_init B) = decodeBuf B.buffer := by
  cases hbuf : B.buffer with
  | nil =>
    rw [ewah_iterator_init, hbuf]
    constructor
    · exact ⟨rfl, by simp, by simp [bufOK_nil]⟩
    · rw [iterRemaining]
      simp [decodeBuf_nil]
  | cons m rest =>
    rw [hbuf, bufOK_cons, Bool.and_eq_true, decide_eq_true_eq] at h
    obtain ⟨hL, hOK⟩ := h
    rw [ewah_iterator_init, hbuf]
    constructor
    · refine ⟨rfl, ?_, ?_⟩
      · show 1 + rlwLitCount m ≤ (m :: rest).length
        simp
        omega
      · show bufOK ((m :: rest).drop (1 + rlwLitCount m)) = true
        rw [show (1 : Nat) + rlwLitCount m = rlwLitCount m + 1 by omega]
        simpa using hOK
    · rw [iterRemaining]
      show List.replicate (rlwRunLen m) (cleanWord (rlwRunBit m))
          ++ ((m :: rest).drop 1).take (rlwLitCount m)
          ++ decodeBuf ((m :: rest).drop (1 + rlwLitCount m)) = _
      rw [decodeBuf_cons]
      rw [show (1 : Nat) + rlwLitCount m = rlwLitCount m + 1 by omega]
      simp

/-- Modelled from the spec: decompress by allocating `ceil(bit_size/64)`
words and filling them from the word iterator. -/
def ewah_to_bitmap (e : EwahBitmap) : Bitmap :=
  { words := (iterRun ((e.bit_size + 63) / 64) (ewah_iterator_init e)).1
    word_alloc := (e.bit_size + 63) / 64 }

/-- Decompression recovers exactly the decoded word sequence whenever the
bitmap's bit count matches its decoded length. -/
theorem ewah_to_bitmap_words (B : EwahBitmap) (h : bufOK B.buffer = true)
    (hlen : (decodeBuf B.buffer).length = (B.bit_size + 63) / 64) :
    (ewah_to_bitmap B).words = decodeBuf B.buffer := by
  obtain ⟨hok, hrem⟩ := ewah_iterator_init_spec B h
  show (iterRun ((B.bit_size + 63) / 64) (ewah_iterator_init B)).1 = _
  rw [iterRun_spec _ _ hok, hrem]
  show (decodeBuf B.buffer).take ((B.bit_size + 63) / 64) = _
  rw [← hlen]
  exact List.take_of_length_le (le_refl _)

/-- Bit-iterator state: `struct ewah_bit_iterator`.  `rlw` is the index of
the current marker, `rl_bits_done` the clean-run bits already processed,
`lw_done` the literals finished in this block, `lw_bits_done` the bits
already processed in the current literal, and `pos` the next absolute bit
position. -/
structure EwahBitIterator where
  buffer : List Nat
  buffer_size : Nat
  rlw : Nat
  rl_bits_done : Nat
  lw_done : Nat
  lw_bits_done : Nat
  pos : Nat
deriving Repr, DecidableEq

/-- Modelled from the spec: start at the first marker with all counters at
zero. -/
def ewah_bit_iterator_init (parent : EwahBitmap) : EwahBitIterator :=
  { buffer := parent.buffer
    buffer_size := parent.buffer.length
    rlw := 0
    rl_bits_done := 0
    lw_done := 0
    lw_bits_done := 0
    pos := 0 }

/-- Find-next-set-bit primitive: the least set bit of `w` at index `s` or
above (below 64), scanning from the least significant end. -/
def nextSetBit (w s : Nat) : Option Nat :=
  if s < 64 then
    if w.testBit s then some s else nextSetBit w (s + 1)
  else none
termination_by 64 - s
decreasing_by
  omega

theorem nextSetBit_some (w : Nat) : ∀ (k s j : Nat), 64 - s ≤ k →
    nextSetBit w s = some j →
    s ≤ j ∧ j < 64 ∧ w.testBit j = true ∧
      ∀ t, s ≤ t → t < j → w.testBit t = false := by
  intro k
  induction k with
  | zero =>
    intro s j hk h
    rw [nextSetBit.eq_def, if_neg (by omega)] at h
    exact absurd h (by simp)
  | succ k ih =>
    intro s j hk h
    by_cases hs : s < 64
    · rw [nextSetBit.eq_def, if_pos hs] at h
      by_cases hbit : w.testBit s
      · rw [if_pos hbit] at h
        have : s = j := by simpa using h
        subst this
        exact ⟨le_refl _, hs, hbit, fun t h1 h2 => absurd h1 (by omega)⟩
      · rw [if_neg hbit] at h
        obtain ⟨g1, g2, g3, g4⟩ := ih (s + 1) j (by omega) h
        refine ⟨by omega, g2, g3, ?_⟩
        intro t h1 h2
        by_cases ht : t = s
        · subst ht
          simpa using hbit
        · exact g4 t (by omega) h2
    · rw [nextSetBit.eq_def, if_neg hs] at h
      exact absurd h (by simp)

theorem nextSetBit_none (w : Nat) : ∀ (k s : Nat), 64 - s ≤ k →
    nextSetBit w s = none →
    ∀ t, s ≤ t → t < 64 → w.testBit t = false := by
  intro k
  induction k with
  | zero =>
    intro s hk h t h1 h2
    omega
  | succ k ih =>
    intro s hk h t h1 h2
    have hs : s < 64 := by omega
    rw [nextSetBit.eq_def, if_pos hs] at h
    by_cases hbit : w.testBit s
    · rw [if_pos hbit] at h
      exact absurd h (by simp)
    · rw [if_neg hbit] at h
      by_cases ht : t = s
      · subst ht
        simpa using hbit
      · exact ih (s + 1) (by omega) h t (by omega) h2

/-- Modelled from the spec: yield the absolute position of the next set bit.
Clean runs of ones are emitted bit by bit and clean runs of zeros skipped
whole; literals are scanned with the find-next-set-bit primitive; when a
block is exhausted the cursor moves to the next marker; `none` is returned
once all markers are consumed. -/
def ewah_bit_iterator_next (it : EwahBitIterator) : Option (Nat × EwahBitIterator) :=
  if it.rlw < it.buffer_size then
    if it.rl_bits_done < 64 * rlwRunLen (it.buffer.getD it.rlw 0) then
      if rlwRunBit (it.buffer.getD it.rlw 0) then
        some (it.pos, { it with rl_bits_done := it.rl_bits_done + 1, pos := it.pos + 1 })
      else
        ewah_bit_iterator_next
          { it with
            rl_bits_done := 64 * rlwRunLen (it.buffer.getD it.rlw 0)
            pos := it.pos + (64 * rlwRunLen (it.buffer.getD it.rlw 0) - it.rl_bits_done) }
    else if it.lw_done < rlwLitCount (it.buffer.getD it.rlw 0) then
      match nextSetBit (it.buffer.getD (it.rlw + 1 + it.lw_done) 0) it.lw_bits_done with
      | some j =>
        some (it.pos + (j - it.lw_bits_done),
          { it with
            lw_bits_done := j + 1
            pos := it.pos + (j - it.lw_bits_done) + 1 })
      | none =>
        ewah_bit_iterator_next
          { it with
            lw_done := it.lw_done + 1
            lw_bits_done := 0
            pos := it.pos + (64 - it.lw_bits_done) }
    else
      ewah_bit_iterator_next
        { it with
          rlw := it.rlw + 1 + rlwLitCount (it.buffer.getD it.rlw 0)
          rl_bits_done := 0
          lw_done := 0
          lw_bits_done := 0 }
  else none
termination_by
  (it.buffer_size - it.rlw) * 1099511627776
    + (64 * rlwRunLen (it.buffer.getD it.rlw 0) - it.rl_bits_done)
    + (rlwLitCount (it.buffer.getD it.rlw 0) - it.lw_done)
decreasing_by
  · simp_wf
    simp only [List.getD_eq_getElem?_getD] at *
    omega
  · simp_wf
    simp only [List.getD_eq_getElem?_getD] at *
    omega
  · simp_wf
    have hr := rlwRunLen_lt (it.buffer.getD (it.rlw + 1 + rlwLitCount (it.buffer.getD it.rlw 0)) 0)
    have hl := rlwLitCount_lt (it.buffer.getD (it.rlw + 1 + rlwLitCount (it.buffer.getD it.rlw 0)) 0)
    have hr0 := rlwRunLen_lt (it.buffer.getD it.rlw 0)
    have hl0 := rlwLitCount_lt (it.buffer.getD it.rlw 0)
    simp only [List.getD_eq_getElem?_getD] at *
    omega

/-- The bit string the bit iterator has yet to scan, starting at absolute
position `pos`: the unfinished part of the current clean run, the unfinished
literal bits of the current block, then the bits of all later blocks. -/
def remBits (it : EwahBitIterator) : List Bool :=
  if it.rlw < it.buffer.length then
    List.replicate (64 * rlwRunLen (it.buffer.getD it.rlw 0) - it.rl_bits_done)
        (rlwRunBit (it.buffer.getD it.rlw 0))
      ++ (wordsBools ((it.buffer.drop (it.rlw + 1)).take
            (rlwLitCount (it.buffer.getD it.rlw 0)))).drop
            (64 * it.lw_done + it.lw_bits_done)
      ++ wordsBools (decodeBuf (it.buffer.drop
            (it.rlw + 1 + rlwLitCount (it.buffer.getD it.rlw 0))))
  else []

/-- The absolute positions of the set bits the iterator has yet to yield. -/
def remPos (it : EwahBitIterator) : List Nat :=
  (trueIdx (remBits it)).map (· + it.pos)

/-- Validity of a bit-iterator state over its borrowed buffer. -/
def BitItOK (it : EwahBitIterator) : Prop :=
  it.buffer_size = it.buffer.length ∧
  (it.rlw < it.buffer.length →
    rlwLitCount (it.buffer.getD it.rlw 0) ≤ it.buffer.length - (it.rlw + 1) ∧
    bufOK (it.buffer.drop (it.rlw + 1 + rlwLitCount (it.buffer.getD it.rlw 0))) = true ∧
    it.rl_bits_done ≤ 64 * rlwRunLen (it.buffer.getD it.rlw 0) ∧
    it.lw_done ≤ rlwLitCount (it.buffer.getD it.rlw 0) ∧
    it.lw_bits_done ≤ 64)

theorem map_add_map_add (l : List Nat) (a b : Nat) :
    (l.map (· + a)).map (· + b) = l.map (· + (a + b)) := by
  rw [List.map_map]
  refine List.map_congr_left ?_
  intro x _
  show x + a + b = x + (a + b)
  omega

theorem boolList_drop_decomp (bl : List Bool) (j : Nat) :
    ∀ (d s : Nat), j - s = d → s ≤ j → j < bl.length →
    (∀ t, s ≤ t → t < j → bl.getD t false = false) →
    bl.getD j false = true →
    bl.drop s = List.replicate (j - s) false ++ true :: bl.drop (j + 1) := by
  intro d
  induction d with
  | zero =>
    intro s hd hsj hj hfalse htrue
    have hs : s = j := by omega
    rw [hs, List.drop_eq_getElem_cons hj]
    rw [List.getD_eq_getElem _ _ hj] at htrue
    rw [htrue]
    simp
  | succ d ih =>
    intro s hd hsj hj hfalse htrue
    have hslt : s < j := by omega
    have hsl : s < bl.length := by omega
    rw [List.drop_eq_getElem_cons hsl]
    have hbs : bl[s] = false := by
      have := hfalse s (le_refl _) hslt
      rwa [List.getD_eq_getElem _ _ hsl] at this
    rw [hbs]
    rw [ih (s + 1) (by omega) (by omega) hj (fun t h1 h2 => hfalse t (by omega) h2) htrue]
    rw [show j - s = (j - (s + 1)) + 1 by omega, List.replicate_succ]
    simp

theorem boolList_drop_allFalse (bl : List Bool) (s : Nat)
    (hfalse : ∀ t, s ≤ t → t < bl.length → bl.getD t false = false) :
    bl.drop s = List.replicate (bl.length - s) false := by
  rw [List.eq_replicate_iff]
  constructor
  · simp
  · intro b hb
    rw [List.mem_iff_getElem] at hb
    obtain ⟨i, hi, hbi⟩ := hb
    rw [List.getElem_drop] at hbi
    have hlen : s + i < bl.length := by
      simp at hi
      omega
    have := hfalse (s + i) (by omega) hlen
    rw [List.getD_eq_getElem _ _ hlen] at this
    rw [← hbi, this]

theorem list_take_getD_drop (l : List Nat) (d : Nat) (hd : d < l.length) :
    l = l.take d ++ l.getD d 0 :: l.drop (d + 1) := by
  conv_lhs => rw [← List.take_append_drop d l]
  rw [List.drop_eq_getElem_cons hd, List.getD_eq_getElem _ _ hd]

theorem wordsBools_decomp_at (lits : List Nat) (d : Nat) (hd : d < lits.length) :
    wordsBools lits =
      wordsBools (lits.take d) ++ wordBools (lits.getD d 0)
        ++ wordsBools (lits.drop (d + 1)) := by
  conv_lhs => rw [list_take_getD_drop lits d hd]
  rw [wordsBools_append, wordsBools_cons]
  simp [List.append_assoc]

/-- One-step simulation for the bit iterator: from a valid state it yields
exactly the first remaining set-bit position, and returns `none` exactly when
no set bits remain. -/
theorem ewah_bit_iterator_next_spec : ∀ (k : Nat) (it : EwahBitIterator),
    (it.buffer_size - it.rlw) * 1099511627776
      + (64 * rlwRunLen (it.buffer.getD it.rlw 0) - it.rl_bits_done)
      + (rlwLitCount (it.buffer.getD it.rlw 0) - it.lw_done) ≤ k →
    BitItOK it →
    (remPos it = [] → ewah_bit_iterator_next it = none) ∧
    (∀ p rest, remPos it = p :: rest →
      ∃ it', ewah_bit_iterator_next it = some (p, it') ∧ BitItOK it' ∧
        remPos it' = rest ∧ it'.buffer = it.buffer ∧ it'.buffer_size = it.buffer_size) := by
  intro k
  induction k using Nat.strong_induction_on with
  | _ k ih =>
    intro it hk hok
    obtain ⟨hbs, hval⟩ := hok
    by_cases hin : it.rlw < it.buffer_size
    case neg =>
      have hlen : ¬ it.rlw < it.buffer.length := by omega
      have hrb : remBits it = [] := by rw [remBits, if_neg hlen]
      have hrp : remPos it = [] := by rw [remPos, hrb, trueIdx_nil, List.map_nil]
      constructor
      · intro _
        rw [ewah_bit_iterator_next.eq_def, if_neg hin]
      · intro p rest hpr
        rw [hrp] at hpr
        exact absurd hpr.symm (List.cons_ne_nil _ _)
    case pos =>
      have hlen : it.rlw < it.buffer.length := by omega
      obtain ⟨hL, hOK, hrl_le, hlw_le, hlwb_le⟩ := hval hlen
      by_cases hrun : it.rl_bits_done < 64 * rlwRunLen (it.buffer.getD it.rlw 0)
      · -- inside the clean run
        by_cases hb : rlwRunBit (it.buffer.getD it.rlw 0) = true
        · -- a run of ones: emit the current position
          set X : List Bool :=
            (wordsBools ((it.buffer.drop (it.rlw + 1)).take
                (rlwLitCount (it.buffer.getD it.rlw 0)))).drop
                (64 * it.lw_done + it.lw_bits_done)
              ++ wordsBools (decodeBuf (it.buffer.drop
                  (it.rlw + 1 + rlwLitCount (it.buffer.getD it.rlw 0)))) with hX
          set it' : EwahBitIterator :=
            { it with rl_bits_done := it.rl_bits_done + 1, pos := it.pos + 1 } with hit'
          have hrb : remBits it = true ::
              (List.replicate (64 * rlwRunLen (it.buffer.getD it.rlw 0)
                - (it.rl_bits_done + 1)) true ++ X) := by
            rw [remBits, if_pos hlen, hb]
            rw [show 64 * rlwRunLen (it.buffer.getD it.rlw 0) - it.rl_bits_done
              = (64 * rlwRunLen (it.buffer.getD it.rlw 0) - (it.rl_bits_done + 1)) + 1
              by omega, List.replicate_succ]
            rw [hX]
            simp only [List.cons_append, List.append_assoc]
          have hrb' : remBits it' =
              List.replicate (64 * rlwRunLen (it.buffer.getD it.rlw 0)
                - (it.rl_bits_done + 1)) true ++ X := by
            rw [remBits]
            rw [if_pos (show it'.rlw < it'.buffer.length from hlen)]
            show List.replicate (64 * rlwRunLen (it.buffer.getD it.rlw 0)
                - (it.rl_bits_done + 1)) (rlwRunBit (it.buffer.getD it.rlw 0))
              ++ (wordsBools ((it.buffer.drop (it.rlw + 1)).take
                  (rlwLitCount (it.buffer.getD it.rlw 0)))).drop
                  (64 * it.lw_done + it.lw_bits_done)
              ++ wordsBools (decodeBuf (it.buffer.drop
                  (it.rlw + 1 + rlwLitCount (it.buffer.getD it.rlw 0)))) = _
            rw [hb, hX, List.append_assoc]
          have hrp : remPos it = it.pos ::
              (trueIdx (remBits it')).map (· + (it.pos + 1)) := by
            rw [remPos, hrb, trueIdx_cons_true, List.map_cons, hrb']
            rw [map_add_map_add]
            congr 1
            · omega
            · refine List.map_congr_left ?_
              intro a _
              show a + (1 + it.pos) = a + (it.pos + 1)
              omega
          have hok' : BitItOK it' := by
            refine ⟨hbs, fun h => ?_⟩
            refine ⟨hL, hOK, ?_, hlw_le, hlwb_le⟩
            show it.rl_bits_done + 1 ≤ 64 * rlwRunLen (it.buffer.getD it.rlw 0)
            omega
          constructor
          · intro hnil
            rw [hrp] at hnil
            exact absurd hnil (List.cons_ne_nil _ _)
          · intro p rest hpr
            rw [hrp, List.cons.injEq] at hpr
            obtain ⟨hp, hrest⟩ := hpr
            refine ⟨it', ?_, hok', ?_, rfl, rfl⟩
            · rw [ewah_bit_iterator_next.eq_def, if_pos hin, if_pos hrun, if_pos hb, ← hp]
            · rw [remPos, ← hrest]
        · -- a run of zeros: skip it whole and continue
          rw [Bool.not_eq_true] at hb
          set k0 := 64 * rlwRunLen (it.buffer.getD it.rlw 0) - it.rl_bits_done with hk0
          set it₂ : EwahBitIterator :=
            { it with
              rl_bits_done := 64 * rlwRunLen (it.buffer.getD it.rlw 0)
              pos := it.pos + (64 * rlwRunLen (it.buffer.getD it.rlw 0) - it.rl_bits_done) } with hit₂
          have hrb₂ : remBits it₂ =
              (wordsBools ((it.buffer.drop (it.rlw + 1)).take
                  (rlwLitCount (it.buffer.getD it.rlw 0)))).drop
                  (64 * it.lw_done + it.lw_bits_done)
                ++ wordsBools (decodeBuf (it.buffer.drop
                    (it.rlw + 1 + rlwLitCount (it.buffer.getD it.rlw 0)))) := by
            rw [remBits]
            rw [if_pos (show it₂.rlw < it₂.buffer.length from hlen)]
            show List.replicate (64 * rlwRunLen (it.buffer.getD it.rlw 0)
                  - 64 * rlwRunLen (it.buffer.getD it.rlw 0))
                  (rlwRunBit (it.buffer.getD it.rlw 0))
                ++ (wordsBools ((it.buffer.drop (it.rlw + 1)).take
                    (rlwLitCount (it.buffer.getD it.rlw 0)))).drop
                    (64 * it.lw_done + it.lw_bits_done)
                ++ wordsBools (decodeBuf (it.buffer.drop
                    (it.rlw + 1 + rlwLitCount (it.buffer.getD it.rlw 0)))) = _
            rw [Nat.sub_self, List.replicate_zero, List.nil_append]
          have hrb : remBits it = List.replicate k0 false ++ remBits it₂ := by
            rw [remBits, if_pos hlen, hb, hrb₂, hk0, List.append_assoc]
          have hrpeq : remPos it = remPos it₂ := by
            rw [remPos, remPos, hrb, trueIdx_replicate_false, map_add_map_add]
            refine List.map_congr_left ?_
            intro a _
            show a + (k0 + it.pos) = a + (it.pos + k0)
            omega
          have hok₂ : BitItOK it₂ :=
            ⟨hbs, fun h => ⟨hL, hOK, le_refl _, hlw_le, hlwb_le⟩⟩
          have hmeas : (it₂.buffer_size - it₂.rlw) * 1099511627776
              + (64 * rlwRunLen (it₂.buffer.getD it₂.rlw 0) - it₂.rl_bits_done)
              + (rlwLitCount (it₂.buffer.getD it₂.rlw 0) - it₂.lw_done) < k := by
            show (it.buffer_size - it.rlw) * 1099511627776
              + (64 * rlwRunLen (it.buffer.getD it.rlw 0)
                  - 64 * rlwRunLen (it.buffer.getD it.rlw 0))
              + (rlwLitCount (it.buffer.getD it.rlw 0) - it.lw_done) < k
            omega
          obtain ⟨s1, s2⟩ := ih _ hmeas it₂ (le_refl _) hok₂
          have hstep : ewah_bit_iterator_next it = ewah_bit_iterator_next it₂ := by
            conv_lhs => rw [ewah_bit_iterator_next.eq_def]
            rw [if_pos hin, if_pos hrun, if_neg (by rw [hb]; simp)]
          constructor
          · intro hnil
            rw [hstep]
            exact s1 (by rw [← hrpeq]; exact hnil)
          · intro p rest hpr
            rw [hrpeq] at hpr
            obtain ⟨it', g1, g2, g3, g4, g5⟩ := s2 p rest hpr
            exact ⟨it', by rw [hstep]; exact g1, g2, g3, g4, g5⟩
      · -- the clean run is exhausted
        have hrl_eq : it.rl_bits_done = 64 * rlwRunLen (it.buffer.getD it.rlw 0) := by
          omega
        by_cases hlit : it.lw_done < rlwLitCount (it.buffer.getD it.rlw 0)
        · -- scanning a literal word
          set lits := (it.buffer.drop (it.rlw + 1)).take
            (rlwLitCount (it.buffer.getD it.rlw 0)) with hlits
          have hlitslen : lits.length = rlwLitCount (it.buffer.getD it.rlw 0) := by
            rw [hlits, List.length_take, List.length_drop]
            omega
          set w := it.buffer.getD (it.rlw + 1 + it.lw_done) 0 with hwdef
          have hdlt : it.lw_done < lits.length := by omega
          have hblt : it.rlw + 1 + it.lw_done < it.buffer.length := by omega
          have hw : lits.getD it.lw_done 0 = w := by
            have h1 : lits[it.lw_done]? = it.buffer[it.rlw + 1 + it.lw_done]? := by
              rw [hlits, List.getElem?_take, if_pos hlit, List.getElem?_drop]
            rw [hwdef, List.getD_eq_getElem?_getD, List.getD_eq_getElem?_getD, h1]
          set tailD := wordsBools (decodeBuf (it.buffer.drop
            (it.rlw + 1 + rlwLitCount (it.buffer.getD it.rlw 0)))) with htailD
          have hlenA : (wordsBools (lits.take it.lw_done)).length = 64 * it.lw_done := by
            rw [length_wordsBools, List.length_take]
            omega
          have hdecomp : wordsBools lits =
              wordsBools (lits.take it.lw_done) ++ (wordBools w
                ++ wordsBools (lits.drop (it.lw_done + 1))) := by
            rw [wordsBools_decomp_at lits it.lw_done hdlt, hw]
            simp [List.append_assoc]
          have hdropgen : ∀ s : Nat, s ≤ 64 →
              (wordsBools lits).drop (64 * it.lw_done + s)
                = (wordBools w).drop s ++ wordsBools (lits.drop (it.lw_done + 1)) := by
            intro s hs
            rw [hdecomp, ← hlenA, List.drop_append]
            rw [List.drop_append_of_le_length (by rw [length_wordBools]; omega)]
          -- the remaining bits of the block are the unscanned part of `w`,
          -- the later literals, then the later blocks
          have hrbit : remBits it =
              ((wordBools w).drop it.lw_bits_done
                ++ wordsBools (lits.drop (it.lw_done + 1))) ++ tailD := by
            rw [remBits, if_pos hlen, hrl_eq, Nat.sub_self, List.replicate_zero,
              List.nil_append, ← hlits, ← htailD, hdropgen it.lw_bits_done hlwb_le]
          cases hnsb : nextSetBit w it.lw_bits_done with
          | some j =>
            obtain ⟨hsj, hj64, hjbit, hjlow⟩ :=
              nextSetBit_some w 64 it.lw_bits_done j (by omega) hnsb
            have hBdec : (wordBools w).drop it.lw_bits_done =
                List.replicate (j - it.lw_bits_done) false
                  ++ true :: (wordBools w).drop (j + 1) := by
              refine boolList_drop_decomp (wordBools w) j (j - it.lw_bits_done)
                it.lw_bits_done rfl hsj (by rw [length_wordBools]; omega) ?_ ?_
              · intro t h1 h2
                rw [getD_wordBools]
                simp [hjlow t h1 h2]
              · rw [getD_wordBools]
                simp [hj64, hjbit]
            set Z : List Bool := (wordBools w).drop (j + 1)
              ++ wordsBools (lits.drop (it.lw_done + 1)) ++ tailD with hZ
            have hrbZ : remBits it =
                List.replicate (j - it.lw_bits_done) false ++ true :: Z := by
              rw [hrbit, hBdec, hZ]
              simp [List.append_assoc]
            set it' : EwahBitIterator :=
              { it with
                lw_bits_done := j + 1
                pos := it.pos + (j - it.lw_bits_done) + 1 } with hit'
            have hrb' : remBits it' = Z := by
              rw [remBits]
              rw [if_pos (show it'.rlw < it'.buffer.length from hlen)]
              show List.replicate (64 * rlwRunLen (it.buffer.getD it.rlw 0)
                    - it.rl_bits_done) _
                  ++ (wordsBools ((it.buffer.drop (it.rlw + 1)).take
                      (rlwLitCount (it.buffer.getD it.rlw 0)))).drop
                      (64 * it.lw_done + (j + 1))
                  ++ _ = _
              rw [hrl_eq, Nat.sub_self, List.replicate_zero, List.nil_append,
                ← hlits, hdropgen (j + 1) (by omega), ← htailD, hZ,
                List.append_assoc]
            have hrp : remPos it = (it.pos + (j - it.lw_bits_done)) ::
                (trueIdx Z).map (· + (it.pos + (j - it.lw_bits_done) + 1)) := by
              rw [remPos, hrbZ, trueIdx_replicate_false, trueIdx_cons_true]
              rw [List.map_cons, map_add_map_add, List.map_cons, map_add_map_add]
              congr 1
              · show 0 + (j - it.lw_bits_done) + it.pos = it.pos + (j - it.lw_bits_done)
                omega
              · refine List.map_congr_left ?_
                intro a _
                show a + (1 + (j - it.lw_bits_done) + it.pos)
                  = a + (it.pos + (j - it.lw_bits_done) + 1)
                omega
            have hok' : BitItOK it' := by
              refine ⟨hbs, fun h => ?_⟩
              refine ⟨hL, hOK, hrl_le, hlw_le, ?_⟩
              show j + 1 ≤ 64
              omega
            constructor
            · intro hnil
              rw [hrp] at hnil
              exact absurd hnil (List.cons_ne_nil _ _)
            · intro p rest hpr
              rw [hrp, List.cons.injEq] at hpr
              obtain ⟨hp, hrest⟩ := hpr
              refine ⟨it', ?_, hok', ?_, rfl, rfl⟩
              · rw [ewah_bit_iterator_next.eq_def, if_pos hin, if_neg hrun, if_pos hlit]
                rw [← hwdef, hnsb, ← hp]
              · rw [remPos, hrb', ← hrest]
          | none =>
            have hallf := nextSetBit_none w 64 it.lw_bits_done (by omega) hnsb
            have hBall : (wordBools w).drop it.lw_bits_done =
                List.replicate (64 - it.lw_bits_done) false := by
              have := boolList_drop_allFalse (wordBools w) it.lw_bits_done ?_
              · rwa [length_wordBools] at this
              · intro t h1 h2
                rw [length_wordBools] at h2
                rw [getD_wordBools]
                simp [hallf t h1 h2]
            set it₂ : EwahBitIterator :=
              { it with
                lw_done := it.lw_done + 1
                lw_bits_done := 0
                pos := it.pos + (64 - it.lw_bits_done) } with hit₂
            have hrb₂ : remBits it₂ =
                wordsBools (lits.drop (it.lw_done + 1)) ++ tailD := by
              rw [remBits]
              rw [if_pos (show it₂.rlw < it₂.buffer.length from hlen)]
              show List.replicate (64 * rlwRunLen (it.buffer.getD it.rlw 0)
                    - it.rl_bits_done) _
                  ++ (wordsBools ((it.buffer.drop (it.rlw + 1)).take
                      (rlwLitCount (it.buffer.getD it.rlw 0)))).drop
                      (64 * (it.lw_done + 1) + 0)
                  ++ _ = _
              rw [hrl_eq, Nat.sub_self, List.replicate_zero, List.nil_append, ← hlits,
                show 64 * (it.lw_done + 1) + 0 = 64 * it.lw_done + 64 by ring,
                hdropgen 64 (le_refl _), ← htailD]
              rw [show ((wordBools w).drop 64) = [] from
                List.drop_eq_nil_of_le (by rw [length_wordBools])]
              simp
            have hrb : remBits it =
                List.replicate (64 - it.lw_bits_done) false ++ remBits it₂ := by
              rw [hrbit, hBall, hrb₂]
              simp [List.append_assoc]
            have hrpeq : remPos it = remPos it₂ := by
              rw [remPos, remPos, hrb, trueIdx_replicate_false, map_add_map_add]
              refine List.map_congr_left ?_
              intro a _
              show a + (64 - it.lw_bits_done + it.pos) = a + (it.pos + (64 - it.lw_bits_done))
              omega
            have hok₂ : BitItOK it₂ := by
              refine ⟨hbs, fun h => ?_⟩
              refine ⟨hL, hOK, hrl_le, ?_, ?_⟩
              · show it.lw_done + 1 ≤ rlwLitCount (it.buffer.getD it.rlw 0)
                omega
              · show (0 : Nat) ≤ 64
                omega
            have hmeas : (it₂.buffer_size - it₂.rlw) * 1099511627776
                + (64 * rlwRunLen (it₂.buffer.getD it₂.rlw 0) - it₂.rl_bits_done)
                + (rlwLitCount (it₂.buffer.getD it₂.rlw 0) - it₂.lw_done) < k := by
              show (it.buffer_size - it.rlw) * 1099511627776
                + (64 * rlwRunLen (it.buffer.getD it.rlw 0) - it.rl_bits_done)
                + (rlwLitCount (it.buffer.getD it.rlw 0) - (it.lw_done + 1)) < k
              omega
            obtain ⟨s1, s2⟩ := ih _ hmeas it₂ (le_refl _) hok₂
            have hstep : ewah_bit_iterator_next it = ewah_bit_iterator_next it₂ := by
              conv_lhs => rw [ewah_bit_iterator_next.eq_def]
              rw [if_pos hin, if_neg hrun, if_pos hlit, ← hwdef, hnsb]
            constructor
            · intro hnil
              rw [hstep]
              exact s1 (by rw [← hrpeq]; exact hnil)
            · intro p rest hpr
              rw [hrpeq] at hpr
              obtain ⟨it', g1, g2, g3, g4, g5⟩ := s2 p rest hpr
              exact ⟨it', by rw [hstep]; exact g1, g2, g3, g4, g5⟩
        · -- block exhausted: advance to the next marker
          have hlw_eq : it.lw_done = rlwLitCount (it.buffer.getD it.rlw 0) := by omega
          set it₂ : EwahBitIterator :=
            { it with
              rlw := it.rlw + 1 + rlwLitCount (it.buffer.getD it.rlw 0)
              rl_bits_done := 0
              lw_done := 0
              lw_bits_done := 0 } with hit₂
          set rlw' := it.rlw + 1 + rlwLitCount (it.buffer.getD it.rlw 0) with hrlw'
          have hrbit : remBits it = wordsBools (decodeBuf (it.buffer.drop rlw')) := by
            rw [remBits, if_pos hlen, hrl_eq, Nat.sub_self, List.replicate_zero,
              List.nil_append]
            rw [List.drop_eq_nil_of_le (by
              rw [length_wordsBools, List.length_take, List.length_drop]
              have : min (rlwLitCount (it.buffer.getD it.rlw 0))
                  (it.buffer.length - (it.rlw + 1))
                  = rlwLitCount (it.buffer.getD it.rlw 0) := by omega
              rw [this]
              omega)]
            rw [List.nil_append, ← hrlw']
          have hrb₂ : remBits it₂ = remBits it := by
            rw [hrbit]
            by_cases hnl : rlw' < it.buffer.length
            · rw [remBits]
              rw [if_pos (show it₂.rlw < it₂.buffer.length from hnl)]
              have hdc : it.buffer.drop rlw'
                  = it.buffer.getD rlw' 0 :: it.buffer.drop (rlw' + 1) := by
                rw [List.getD_eq_getElem _ _ hnl]
                exact List.drop_eq_getElem_cons hnl
              conv_rhs => rw [hdc, decodeBuf_cons]
              rw [wordsBools_append, wordsBools_append, wordsBools_replicate_clean]
              show List.replicate (64 * rlwRunLen (it.buffer.getD rlw' 0) - 0) _
                  ++ (wordsBools ((it.buffer.drop (rlw' + 1)).take
                      (rlwLitCount (it.buffer.getD rlw' 0)))).drop (64 * 0 + 0)
                  ++ wordsBools (decodeBuf (it.buffer.drop
                      (rlw' + 1 + rlwLitCount (it.buffer.getD rlw' 0)))) = _
              rw [Nat.sub_zero, show 64 * 0 + 0 = 0 by ring, List.drop_zero,
                Nat.mul_comm 64 (rlwRunLen (it.buffer.getD rlw' 0)),
                List.drop_drop,
                show rlw' + 1 + rlwLitCount (it.buffer.getD rlw' 0)
                  = rlwLitCount (it.buffer.getD rlw' 0) + (rlw' + 1) by omega]
            · rw [remBits]
              rw [if_neg (show ¬ it₂.rlw < it₂.buffer.length from hnl)]
              rw [List.drop_eq_nil_of_le (by omega), decodeBuf_nil, wordsBools_nil]
          have hrpeq : remPos it = remPos it₂ := by
            rw [remPos, remPos, hrb₂]
          have hok₂ : BitItOK it₂ := by
            refine ⟨hbs, ?_⟩
            intro hnl
            have hnl' : rlw' < it.buffer.length := hnl
            have hdc : it.buffer.drop rlw'
                = it.buffer.getD rlw' 0 :: it.buffer.drop (rlw' + 1) := by
              rw [List.getD_eq_getElem _ _ hnl']
              exact List.drop_eq_getElem_cons hnl'
            have hOK' : bufOK (it.buffer.drop rlw') = true := hOK
            rw [hdc, bufOK_cons, Bool.and_eq_true, decide_eq_true_eq] at hOK'
            obtain ⟨hL', hOK''⟩ := hOK'
            have hlen' : (it.buffer.drop (rlw' + 1)).length
                = it.buffer.length - (rlw' + 1) := by simp
            refine ⟨?_, ?_, ?_, ?_, ?_⟩
            · show rlwLitCount (it.buffer.getD rlw' 0) ≤ it.buffer.length - (rlw' + 1)
              omega
            · show bufOK (it.buffer.drop (rlw' + 1 + rlwLitCount (it.buffer.getD rlw' 0))) = true
              rw [List.drop_drop] at hOK''
              exact hOK''
            · show (0 : Nat) ≤ 64 * rlwRunLen (it.buffer.getD rlw' 0)
              omega
            · show (0 : Nat) ≤ rlwLitCount (it.buffer.getD rlw' 0)
              omega
            · show (0 : Nat) ≤ 64
              omega
          have hmeas : (it₂.buffer_size - it₂.rlw) * 1099511627776
              + (64 * rlwRunLen (it₂.buffer.getD it₂.rlw 0) - it₂.rl_bits_done)
              + (rlwLitCount (it₂.buffer.getD it₂.rlw 0) - it₂.lw_done) < k := by
            show (it.buffer_size - rlw') * 1099511627776
              + (64 * rlwRunLen (it.buffer.getD rlw' 0) - 0)
              + (rlwLitCount (it.buffer.getD rlw' 0) - 0) < k
            have h1 := rlwRunLen_lt (it.buffer.getD rlw' 0)
            have h2 := rlwLitCount_lt (it.buffer.getD rlw' 0)
            omega
          obtain ⟨s1, s2⟩ := ih _ hmeas it₂ (le_refl _) hok₂
          have hstep : ewah_bit_iterator_next it = ewah_bit_iterator_next it₂ := by
            conv_lhs => rw [ewah_bit_iterator_next.eq_def]
            rw [if_pos hin, if_neg hrun, if_neg hlit]
          constructor
          · intro hnil
            rw [hstep]
            exact s1 (by rw [← hrpeq]; exact hnil)
          · intro p rest hpr
            rw [hrpeq] at hpr
            obtain ⟨it', g1, g2, g3, g4, g5⟩ := s2 p rest hpr
            exact ⟨it', by rw [hstep]; exact g1, g2, g3, g4, g5⟩

/-- Drive the bit iterator for at most `fuel` yields; the Boolean records
whether `ewah_bit_iterator_next` was observed returning no position. -/
def bitIterRun : Nat → EwahBitIterator → List Nat × Bool
  | 0, _ => ([], false)
  | fuel + 1, it =>
    match ewah_bit_iterator_next it with
    | none => ([], true)
    | some (p, it') =>
      let r := bitIterRun fuel it'
      (p :: r.1, r.2)

/-- Driving a valid bit iterator yields exactly its remaining set-bit
positions. -/
theorem bitIterRun_spec : ∀ (fuel : Nat) (it : EwahBitIterator), BitItOK it →
    bitIterRun fuel it =
      ((remPos it).take fuel, decide ((remPos it).length < fuel)) := by
  intro fuel
  induction fuel with
  | zero =>
    intro it _
    simp [bitIterRun]
  | succ fuel ih =>
    intro it hok
    obtain ⟨s1, s2⟩ := ewah_bit_iterator_next_spec
      ((it.buffer_size - it.rlw) * 1099511627776
        + (64 * rlwRunLen (it.buffer.getD it.rlw 0) - it.rl_bits_done)
        + (rlwLitCount (it.buffer.getD it.rlw 0) - it.lw_done)) it (le_refl _) hok
    cases hrem : remPos it with
    | nil =>
      rw [bitIterRun, s1 hrem]
      simp
    | cons p rest =>
      obtain ⟨it', g1, g2, g3, _, _⟩ := s2 p rest hrem
      rw [bitIterRun, g1]
      simp only [ih it' g2, g3]
      simp

/-- Initializing the bit iterator on a parseable buffer leaves exactly the
set-bit positions of the decoded content to be yielded. -/
theorem ewah_bit_iterator_init_spec (B : EwahBitmap) (h : bufOK B.buffer = true) :
    BitItOK (ewah_bit_iterator_init B) ∧
    remPos (ewah_bit_iterator_init B) = setPositions (decodeBuf B.buffer) := by
  have hmap0 : ∀ l : List Nat, l.map (· + 0) = l := by
    intro l
    simp
  cases hbuf : B.buffer with
  | nil =>
    have hinit : ewah_bit_iterator_init B =
        { buffer := []
          buffer_size := 0
          rlw := 0
          rl_bits_done := 0
          lw_done := 0
          lw_bits_done := 0
          pos := 0 } := by
      rw [ewah_bit_iterator_init.eq_def, hbuf]
      rfl
    rw [hinit]
    constructor
    · refine ⟨rfl, ?_⟩
      intro hlt
      simp at hlt
    · rw [remPos, remBits]
      rw [if_neg (by simp)]
      show (trueIdx []).map (· + 0) = setPositions (decodeBuf [])
      rw [decodeBuf_nil, setPositions, wordsBools_nil, trueIdx_nil, List.map_nil]
  | cons m rest =>
    rw [hbuf, bufOK_cons, Bool.and_eq_true, decide_eq_true_eq] at h
    obtain ⟨hL, hOK⟩ := h
    have hinit : ewah_bit_iterator_init B =
        { buffer := m :: rest
          buffer_size := (m :: rest).length
          rlw := 0
          rl_bits_done := 0
          lw_done := 0
          lw_bits_done := 0
          pos := 0 } := by
      rw [ewah_bit_iterator_init.eq_def, hbuf]
    rw [hinit]
    constructor
    · refine ⟨rfl, fun _ => ?_⟩
      refine ⟨?_, ?_, ?_, ?_, ?_⟩
      · show rlwLitCount ((m :: rest).getD 0 0) ≤ (m :: rest).length - (0 + 1)
        rw [List.getD_cons_zero]
        simp only [List.length_cons]
        omega
      · show bufOK ((m :: rest).drop (0 + 1 + rlwLitCount ((m :: rest).getD 0 0))) = true
        rw [List.getD_cons_zero,
          show 0 + 1 + rlwLitCount m = rlwLitCount m + 1 by omega,
          List.drop_succ_cons]
        exact hOK
      · show (0 : Nat) ≤ 64 * rlwRunLen ((m :: rest).getD 0 0)
        omega
      · show (0 : Nat) ≤ rlwLitCount ((m :: rest).getD 0 0)
        omega
      · show (0 : Nat) ≤ 64
        omega
    · rw [remPos, remBits]
      rw [if_pos (by simp)]
      show (trueIdx (List.replicate
            (64 * rlwRunLen ((m :: rest).getD 0 0) - 0)
            (rlwRunBit ((m :: rest).getD 0 0))
          ++ (wordsBools (((m :: rest).drop (0 + 1)).take
              (rlwLitCount ((m :: rest).getD 0 0)))).drop (64 * 0 + 0)
          ++ wordsBools (decodeBuf ((m :: rest).drop
              (0 + 1 + rlwLitCount ((m :: rest).getD 0 0)))))).map (· + 0)
        = setPositions (decodeBuf (m :: rest))
      rw [hmap0, List.getD_cons_zero, Nat.sub_zero,
        show (64 * 0 + 0 : Nat) = 0 by norm_num, List.drop_zero,
        show ((m :: rest).drop (0 + 1)) = rest from rfl,
        show (0 + 1 + rlwLitCount m : Nat) = rlwLitCount m + 1 by omega,
        List.drop_succ_cons]
      rw [setPositions, decodeBuf_cons, wordsBools_append, wordsBools_append,
        wordsBools_replicate_clean]

/-- Big-endian bytes of a 32-bit integer (values are truncated to 32 bits,
as storing into a `uint32` does). -/
def be32 (n : Nat) : List Nat :=
  [n / 16777216 % 256, n / 65536 % 256, n / 256 % 256, n % 256]

/-- Big-endian bytes of a 64-bit word. -/
def be64 (n : Nat) : List Nat :=
  [n / 72057594037927936 % 256, n / 281474976710656 % 256,
   n / 1099511627776 % 256, n / 4294967296 % 256,
   n / 16777216 % 256, n / 65536 % 256, n / 256 % 256, n % 256]

/-- Modelled from the spec: serialize a bitmap to its wire format —
`uint32 bit_size`, `uint32 num_words`, the buffer words as `uint64`s, then
`uint32 rlw_offset`, all big-endian. -/
def ewah_serialize (B : EwahBitmap) : List Nat :=
  be32 B.bit_size ++ be32 B.buffer.length ++ B.buffer.flatMap be64 ++ be32 B.rlw

/-- Read a big-endian `uint32`, returning the value and the remaining bytes. -/
def readU32 : List Nat → Option (Nat × List Nat)
  | a :: b :: c :: d :: rest => some (((a * 256 + b) * 256 + c) * 256 + d, rest)
  | _ => none

/-- Read a big-endian `uint64`, returning the value and the remaining bytes. -/
def readU64 : List Nat → Option (Nat × List Nat)
  | a :: b :: c :: d :: e :: f :: g :: h :: rest =>
    some (((((((a * 256 + b) * 256 + c) * 256 + d) * 256 + e) * 256 + f) * 256 + g)
      * 256 + h, rest)
  | _ => none

/-- Read `n` consecutive big-endian `uint64` words. -/
def readWords : Nat → List Nat → Option (List Nat × List Nat)
  | 0, rest => some ([], rest)
  | n + 1, rest =>
    match readU64 rest with
    | none => none
    | some (w, rest') =>
      match readWords n rest' with
      | none => none
      | some (ws, rest'') => some (w :: ws, rest'')

/-- Modelled from the spec: deserialize the wire format into a fresh bitmap,
restoring `bit_size`, the buffer and `rlw`; any short read fails. -/
def ewah_deserialize (bytes : List Nat) : Option EwahBitmap :=
  match readU32 bytes with
  | none => none
  | some (bits, r1) =>
    match readU32 r1 with
    | none => none
    | some (nw, r2) =>
      match readWords nw r2 with
      | none => none
      | some (ws, r3) =>
        match readU32 r3 with
        | none => none
        | some (rl, _) =>
          some { buffer := ws, alloc_size := nw, bit_size := bits, rlw := rl }

theorem readU32_be32 (n : Nat) (rest : List Nat) :
    readU32 (be32 n ++ rest) = some (n % 4294967296, rest) := by
  rw [be32]
  show some _ = _
  refine congrArg some (Prod.ext_iff.mpr ⟨?_, rfl⟩)
  show ((n / 16777216 % 256 * 256 + n / 65536 % 256) * 256 + n / 256 % 256) * 256 + n % 256
    = n % 4294967296
  omega

theorem readU64_be64 (n : Nat) (rest : List Nat) :
    readU64 (be64 n ++ rest) = some (n % 18446744073709551616, rest) := by
  rw [be64]
  show some _ = _
  refine congrArg some (Prod.ext_iff.mpr ⟨?_, rfl⟩)
  show ((((((n / 72057594037927936 % 256 * 256 + n / 281474976710656 % 256) * 256
      + n / 1099511627776 % 256) * 256 + n / 4294967296 % 256) * 256
      + n / 16777216 % 256) * 256 + n / 65536 % 256) * 256 + n / 256 % 256) * 256 + n % 256
    = n % 18446744073709551616
  omega

theorem readWords_flatMap (ws : List Nat) : ∀ (rest : List Nat),
    (∀ w ∈ ws, w < wordMax) →
    readWords ws.length (ws.flatMap be64 ++ rest) = some (ws, rest) := by
  induction ws with
  | nil =>
    intro rest _
    rfl
  | cons w ws ih =>
    intro rest hb
    show readWords (ws.length + 1) ((be64 w ++ ws.flatMap be64) ++ rest) = _
    rw [List.append_assoc]
    show (match readU64 (be64 w ++ (ws.flatMap be64 ++ rest)) with
      | none => none
      | some (w', rest') =>
        match readWords ws.length rest' with
        | none => none
        | some (ws', rest'') => some (w' :: ws', rest'')) = _
    rw [readU64_be64]
    have hw : w % 18446744073709551616 = w :=
      Nat.mod_eq_of_lt (hb w (List.mem_cons_self _ _))
    rw [hw]
    show (match readWords ws.length (ws.flatMap be64 ++ rest) with
      | none => none
      | some (ws', rest'') => some (w :: ws', rest'')) = _
    rw [ih rest (fun x hx => hb x (List.mem_cons_of_mem _ hx))]

/-- Serialize–deserialize round trip for bitmaps whose sizes fit the 32-bit
wire fields. -/
theorem ewah_serialize_roundtrip (B : EwahBitmap)
    (hbits : B.bit_size < 4294967296)
    (hnw : B.buffer.length < 4294967296)
    (hrlw : B.rlw < 4294967296)
    (hw : ∀ w ∈ B.buffer, w < wordMax) :
    ewah_deserialize (ewah_serialize B) =
      some { buffer := B.buffer, alloc_size := B.buffer.length,
             bit_size := B.bit_size, rlw := B.rlw } := by
  rw [ewah_serialize, ewah_deserialize.eq_def]
  rw [List.append_assoc, List.append_assoc, readU32_be32,
    Nat.mod_eq_of_lt hbits]
  show (match readU32 (be32 B.buffer.length ++ (B.buffer.flatMap be64 ++ be32 B.rlw)) with
    | none => none
    | some (nw, r2) =>
      match readWords nw r2 with
      | none => none
      | some (ws, r3) =>
        match readU32 r3 with
        | none => none
        | some (rl, _) =>
          some ({ buffer := ws, alloc_size := nw, bit_size := B.bit_size, rlw := rl }
            : EwahBitmap)) = _
  rw [readU32_be32, Nat.mod_eq_of_lt hnw]
  show (match readWords B.buffer.length (B.buffer.flatMap be64 ++ be32 B.rlw) with
    | none => none
    | some (ws, r3) =>
      match readU32 r3 with
      | none => none
      | some (rl, _) =>
        some ({ buffer := ws, alloc_size := B.buffer.length, bit_size := B.bit_size, rlw := rl }
          : EwahBitmap)) = _
  rw [readWords_flatMap B.buffer (be32 B.rlw) hw]
  show (match readU32 (be32 B.rlw ++ []) with
    | none => none
    | some (rl, _) =>
      some ({ buffer := B.buffer, alloc_size := B.buffer.length,
              bit_size := B.bit_size, rlw := rl } : EwahBitmap)) = _
  rw [readU32_be32, Nat.mod_eq_of_lt hrlw]

/-- Negate a run of literal words during the in-place NOT, masking the final
one to the valid low bits. -/
def trailNeg (mask : Nat) : List Nat → List Nat
  | [] => []
  | [w] => [(w ^^^ allOnes) &&& mask]
  | w :: w' :: rest => (w ^^^ allOnes) :: trailNeg mask (w' :: rest)

/-- Fuel-driven traversal of the in-place NOT: flip each marker's run bit and
complement each literal; in the final block the last literal is masked to the
valid low bits. -/
def notBufTGo (mask : Nat) : Nat → List Nat → List Nat
  | _, [] => []
  | 0, _ :: _ => []
  | fuel + 1, m :: rest =>
    if rest.length ≤ rlwLitCount m then
      mkRLW (!rlwRunBit m) (rlwRunLen m) (rlwLitCount m) :: trailNeg mask rest
    else
      mkRLW (!rlwRunBit m) (rlwRunLen m) (rlwLitCount m)
        :: (rest.take (rlwLitCount m)).map (fun w => w ^^^ allOnes)
        ++ notBufTGo mask fuel (rest.drop (rlwLitCount m))

/-- Buffer transformation of the in-place NOT. -/
def notBufT (mask : Nat) (l : List Nat) : List Nat := notBufTGo mask l.length l

/-- Modelled from the spec: `ewah_not` traverses the buffer, flipping each
marker's run bit and complementing each literal word; the final literal is
truncated to `bit_size mod 64` valid bits (a full 64-bit mask when `bit_size`
is word-aligned). -/
def ewah_not (B : EwahBitmap) : EwahBitmap :=
  { B with
    buffer := notBufT
      (if B.bit_size % 64 = 0 then allOnes else 2 ^ (B.bit_size % 64) - 1)
      B.buffer }

/-- Fuel-driven final-literal detector: whether the last word of the buffer
is a literal of the final block. -/
def endsWithLiteralGo : Nat → List Nat → Bool
  | _, [] => false
  | 0, _ :: _ => false
  | fuel + 1, m :: rest =>
    if rest.length ≤ rlwLitCount m then decide (0 < rest.length)
    else endsWithLiteralGo fuel (rest.drop (rlwLitCount m))

/-- Whether the buffer ends in a literal word (so the logical bit string may
end mid-word there). -/
def endsWithLiteral (l : List Nat) : Bool := endsWithLiteralGo l.length l

theorem notBufTGo_congr (mask : Nat) (f1 : Nat) : ∀ (f2 : Nat) (l : List Nat),
    l.length ≤ f1 → l.length ≤ f2 → notBufTGo mask f1 l = notBufTGo mask f2 l := by
  induction f1 with
  | zero =>
    intro f2 l h1 _
    cases l with
    | nil => cases f2 <;> rfl
    | cons m rest => simp at h1
  | succ f1 ih =>
    intro f2 l h1 h2
    cases l with
    | nil => cases f2 <;> rfl
    | cons m rest =>
      cases f2 with
      | zero => simp at h2
      | succ f2 =>
        simp only [notBufTGo]
        split
        · rfl
        · rw [ih f2 _ (by simp at h1 ⊢; omega) (by simp at h2 ⊢; omega)]

theorem endsWithLiteralGo_congr (f1 : Nat) : ∀ (f2 : Nat) (l : List Nat),
    l.length ≤ f1 → l.length ≤ f2 → endsWithLiteralGo f1 l = endsWithLiteralGo f2 l := by
  induction f1 with
  | zero =>
    intro f2 l h1 _
    cases l with
    | nil => cases f2 <;> rfl
    | cons m rest => simp at h1
  | succ f1 ih =>
    intro f2 l h1 h2
    cases l with
    | nil => cases f2 <;> rfl
    | cons m rest =>
      cases f2 with
      | zero => simp at h2
      | succ f2 =>
        simp only [endsWithLiteralGo]
        split
        · rfl
        · rw [ih f2 _ (by simp at h1 ⊢; omega) (by simp at h2 ⊢; omega)]

theorem notBufT_nil (mask : Nat) : notBufT mask [] = [] := rfl

theorem notBufT_cons_last (mask m : Nat) (rest : List Nat)
    (h : rest.length ≤ rlwLitCount m) :
    notBufT mask (m :: rest) =
      mkRLW (!rlwRunBit m) (rlwRunLen m) (rlwLitCount m) :: trailNeg mask rest := by
  show notBufTGo mask (rest.length + 1) (m :: rest) = _
  simp only [notBufTGo]
  rw [if_pos h]

theorem notBufT_cons_mid (mask m : Nat) (rest : List Nat)
    (h : ¬ rest.length ≤ rlwLitCount m) :
    notBufT mask (m :: rest) =
      mkRLW (!rlwRunBit m) (rlwRunLen m) (rlwLitCount m)
        :: (rest.take (rlwLitCount m)).map (fun w => w ^^^ allOnes)
        ++ notBufT mask (rest.drop (rlwLitCount m)) := by
  show notBufTGo mask (rest.length + 1) (m :: rest) = _
  simp only [notBufTGo]
  rw [if_neg h]
  rw [notBufTGo_congr mask rest.length _ _ (by simp) (le_refl _)]
  rfl

theorem endsWithLiteral_nil : endsWithLiteral [] = false := rfl

theorem endsWithLiteral_cons_last (m : Nat) (rest : List Nat)
    (h : rest.length ≤ rlwLitCount m) :
    endsWithLiteral (m :: rest) = decide (0 < rest.length) := by
  show endsWithLiteralGo (rest.length + 1) (m :: rest) = _
  simp only [endsWithLiteralGo]
  rw [if_pos h]

theorem endsWithLiteral_cons_mid (m : Nat) (rest : List Nat)
    (h : ¬ rest.length ≤ rlwLitCount m) :
    endsWithLiteral (m :: rest) = endsWithLiteral (rest.drop (rlwLitCount m)) := by
  show endsWithLiteralGo (rest.length + 1) (m :: rest) = _
  simp only [endsWithLiteralGo]
  rw [if_neg h]
  rw [endsWithLiteralGo_congr rest.length _ _ (by simp) (le_refl _)]
  rfl

theorem trailNeg_length (mask : Nat) : ∀ l : List Nat, (trailNeg mask l).length = l.length := by
  intro l
  induction l with
  | nil => rfl
  | cons w rest ih =>
    cases rest with
    | nil => rfl
    | cons w' rest' =>
      show (trailNeg mask (w :: w' :: rest')).length = _
      rw [trailNeg]
      simp only [List.length_cons] at ih ⊢
      omega

theorem wordMax_two_pow : wordMax = 2 ^ 64 := by norm_num [wordMax]

theorem testBit_allOnes (j : Nat) (hj : j < 64) : allOnes.testBit j = true := by
  have h : allOnes = 2 ^ 64 - 1 := by norm_num [allOnes]
  rw [h, Nat.testBit_two_pow_sub_one]
  simp [hj]

theorem testBit_ge_64 (w j : Nat) (hw : w < wordMax) (hj : 64 ≤ j) :
    w.testBit j = false := by
  refine Nat.testBit_eq_false_of_lt ?_
  calc w < wordMax := hw
    _ = 2 ^ 64 := wordMax_two_pow
    _ ≤ 2 ^ j := Nat.pow_le_pow_right (by norm_num) hj

theorem xor_allOnes_lt (w : Nat) (hw : w < wordMax) : w ^^^ allOnes < wordMax := by
  rw [wordMax_two_pow] at hw ⊢
  exact Nat.xor_lt_two_pow hw (by norm_num [allOnes])

theorem land_lt_of_lt_left (a b : Nat) (ha : a < wordMax) : a &&& b < wordMax :=
  Nat.lt_of_le_of_lt Nat.and_le_left ha

theorem land_allOnes (w : Nat) (hw : w < wordMax) : w &&& allOnes = w := by
  refine Nat.eq_of_testBit_eq ?_
  intro i
  rw [Nat.testBit_land]
  by_cases hi : i < 64
  · rw [testBit_allOnes i hi, Bool.and_true]
  · rw [testBit_ge_64 w i hw (by omega), Bool.false_and]

theorem land_mask_of_lt (w s : Nat) (hw : w < 2 ^ s) : w &&& (2 ^ s - 1) = w := by
  rw [Nat.and_pow_two_sub_one_eq_mod, Nat.mod_eq_of_lt hw]

/-- Complement-mask-complement-mask is the identity on already-masked words. -/
theorem doubleNegMask (w mask : Nat) (hm : w &&& mask = w) :
    (((w ^^^ allOnes) &&& mask) ^^^ allOnes) &&& mask = w := by
  refine Nat.eq_of_testBit_eq ?_
  intro i
  have hmi : (w.testBit i && mask.testBit i) = w.testBit i := by
    rw [← Nat.testBit_land, hm]
  simp only [Nat.testBit_land, Nat.testBit_xor]
  cases hw1 : w.testBit i <;> cases hmsk : mask.testBit i <;>
    cases ha : allOnes.testBit i <;> simp_all

theorem cleanWord_xor_allOnes (b : Bool) : cleanWord b ^^^ allOnes = cleanWord (!b) := by
  cases b
  · simp [cleanWord]
  · simp [cleanWord, Nat.xor_self]

theorem trailNeg_bounded (mask : Nat) : ∀ (l : List Nat), (∀ w ∈ l, w < wordMax) →
    ∀ w ∈ trailNeg mask l, w < wordMax := by
  intro l
  induction l with
  | nil => intro _ w hw; simp [trailNeg] at hw
  | cons w0 rest ih =>
    intro hb u hu
    cases rest with
    | nil =>
      simp only [trailNeg, List.mem_singleton] at hu
      subst hu
      exact land_lt_of_lt_left _ _ (xor_allOnes_lt _ (hb w0 (by simp)))
    | cons w1 rest' =>
      rw [trailNeg] at hu
      rcases List.mem_cons.mp hu with h | h
      · subst h; exact xor_allOnes_lt _ (hb w0 (by simp))
      · exact ih (fun x hx => hb x (List.mem_cons_of_mem _ hx)) u h

theorem trailNeg_getD (mask : Nat) : ∀ (l : List Nat) (k : Nat), k < l.length →
    (trailNeg mask l).getD k 0 =
      if k + 1 = l.length then (l.getD k 0 ^^^ allOnes) &&& mask
      else l.getD k 0 ^^^ allOnes := by
  intro l
  induction l with
  | nil => intro k hk; simp at hk
  | cons w0 rest ih =>
    intro k hk
    cases rest with
    | nil =>
      simp only [List.length_cons, List.length_nil] at hk
      cases k with
      | zero => simp [trailNeg]
      | succ k' => omega
    | cons w1 rest' =>
      rw [trailNeg]
      cases k with
      | zero =>
        simp only [List.getD_cons_zero]
        rw [if_neg (by simp)]
      | succ k' =>
        simp only [List.getD_cons_succ]
        rw [ih k' (by simp at hk ⊢; omega)]
        simp only [List.length_cons]
        by_cases hcond : k' + 1 = rest'.length + 1
        · rw [if_pos hcond, if_pos (by omega)]
        · rw [if_neg hcond, if_neg (by omega)]

theorem trailNeg_append (mask : Nat) : ∀ (l1 l2 : List Nat), l2 ≠ [] →
    trailNeg mask (l1 ++ l2) = l1.map (fun w => w ^^^ allOnes) ++ trailNeg mask l2 := by
  intro l1
  induction l1 with
  | nil => intro l2 _; simp
  | cons w0 rest ih =>
    intro l2 h2
    have hne : rest ++ l2 ≠ [] := by
      intro hcontra
      exact h2 (List.append_eq_nil.mp hcontra).2
    cases hr : rest ++ l2 with
    | nil => exact absurd hr hne
    | cons x xs =>
      rw [List.cons_append, hr, trailNeg, ← hr, ih l2 h2]
      simp

theorem trailNeg_trailNeg (mask : Nat) : ∀ (l : List Nat),
    (∀ w ∈ l, w < wordMax) →
    (∀ w, l.getLast? = some w → w &&& mask = w) →
    trailNeg mask (trailNeg mask l) = l := by
  intro l
  induction l with
  | nil => intro _ _; rfl
  | cons w0 rest ih =>
    intro hb hlast
    cases rest with
    | nil =>
      have hw : w0 &&& mask = w0 := hlast w0 (List.getLast?_singleton w0)
      show trailNeg mask [(w0 ^^^ allOnes) &&& mask] = [w0]
      show [(((w0 ^^^ allOnes) &&& mask) ^^^ allOnes) &&& mask] = [w0]
      rw [doubleNegMask w0 mask hw]
    | cons w1 rest' =>
      have hlast' : ∀ w, (w1 :: rest').getLast? = some w → w &&& mask = w := by
        intro w hw
        refine hlast w ?_
        rw [List.getLast?_cons_cons]
        exact hw
      rw [trailNeg]
      cases hT : trailNeg mask (w1 :: rest') with
      | nil =>
        have hlen := trailNeg_length mask (w1 :: rest')
        rw [hT] at hlen
        simp at hlen
      | cons t ts =>
        rw [trailNeg, ← hT,
          ih (fun x hx => hb x (List.mem_cons_of_mem _ hx)) hlast',
          Nat.xor_cancel_right]

theorem notBufT_length (mask : Nat) (l : List Nat) (h : bufOK l = true) :
    (notBufT mask l).length = l.length := by
  revert h
  induction l using buf_induction with
  | hnil => intro _; rfl
  | hcons m rest ih =>
    intro h
    by_cases hc : rest.length ≤ rlwLitCount m
    · rw [notBufT_cons_last mask m rest hc]
      simp [trailNeg_length]
    · rw [notBufT_cons_mid mask m rest hc]
      simp only [List.length_cons, List.length_append, List.length_map, List.length_take]
      rw [ih (bufOK_tail m rest h)]
      simp only [List.length_drop]
      omega

theorem notBufT_bufOK (mask : Nat) (l : List Nat) (h : bufOK l = true) :
    bufOK (notBufT mask l) = true := by
  revert h
  induction l using buf_induction with
  | hnil => intro _; rfl
  | hcons m rest ih =>
    intro h
    have hL := bufOK_length_le m rest h
    by_cases hc : rest.length ≤ rlwLitCount m
    · rw [notBufT_cons_last mask m rest hc, bufOK_cons,
        rlwLitCount_mkRLW _ _ _ (rlwRunLen_le_maxRun m) (rlwLitCount_le_maxLit m),
        trailNeg_length,
        List.drop_eq_nil_of_le (by rw [trailNeg_length]; omega)]
      simp only [bufOK_nil, Bool.and_true, decide_eq_true_eq]
      omega
    · rw [notBufT_cons_mid mask m rest hc, List.cons_append, bufOK_cons,
        rlwLitCount_mkRLW _ _ _ (rlwRunLen_le_maxRun m) (rlwLitCount_le_maxLit m)]
      have hlen : ((rest.take (rlwLitCount m)).map (fun w => w ^^^ allOnes)).length
          = rlwLitCount m := by
        simp only [List.length_map, List.length_take]
        omega
      have hdrop : ((rest.take (rlwLitCount m)).map (fun w => w ^^^ allOnes)
          ++ notBufT mask (rest.drop (rlwLitCount m))).drop (rlwLitCount m)
          = notBufT mask (rest.drop (rlwLitCount m)) :=
        List.drop_left' hlen
      rw [hdrop, ih (bufOK_tail m rest h), Bool.and_true, decide_eq_true_eq,
        List.length_append, hlen]
      exact Nat.le_add_right _ _

theorem notBufT_bounded (mask : Nat) (l : List Nat) (h : bufOK l = true)
    (hb : ∀ w ∈ l, w < wordMax) : ∀ w ∈ notBufT mask l, w < wordMax := by
  revert h hb
  induction l using buf_induction with
  | hnil => intro _ _ w hw; simp [notBufT_nil] at hw
  | hcons m rest ih =>
    intro h hb
    by_cases hc : rest.length ≤ rlwLitCount m
    · rw [notBufT_cons_last mask m rest hc]
      intro w hw
      rcases List.mem_cons.mp hw with h1 | h1
      · subst h1
        exact mkRLW_lt _ _ _ (rlwRunLen_le_maxRun m) (rlwLitCount_le_maxLit m)
      · exact trailNeg_bounded mask rest (fun x hx => hb x (List.mem_cons_of_mem _ hx)) w h1
    · rw [notBufT_cons_mid mask m rest hc]
      intro w hw
      rcases List.mem_cons.mp hw with h1 | h1
      · subst h1
        exact mkRLW_lt _ _ _ (rlwRunLen_le_maxRun m) (rlwLitCount_le_maxLit m)
      · rcases List.mem_append.mp h1 with h2 | h2
        · rcases List.mem_map.mp h2 with ⟨x, hx, hxe⟩
          subst hxe
          exact xor_allOnes_lt x (hb x (List.mem_cons_of_mem _ (List.mem_of_mem_take hx)))
        · exact ih (bufOK_tail m rest h)
            (fun x hx => hb x (List.mem_cons_of_mem _ (List.mem_of_mem_drop hx))) w h2

/-- A buffer that ends in a literal decodes to a nonempty word list. -/
theorem decode_ne_nil_of_ends (l : List Nat) (h : bufOK l = true)
    (he : endsWithLiteral l = true) : decodeBuf l ≠ [] := by
  revert h he
  induction l using buf_induction with
  | hnil =>
    intro _ he
    rw [endsWithLiteral_nil] at he
    cases he
  | hcons m rest ih =>
    intro h he
    by_cases hc : rest.length ≤ rlwLitCount m
    · rw [endsWithLiteral_cons_last m rest hc, decide_eq_true_eq] at he
      rw [decodeBuf_cons]
      intro hcontra
      have hlen := congrArg List.length hcontra
      simp only [List.length_append, List.length_replicate, List.length_take,
        List.length_nil] at hlen
      omega
    · rw [endsWithLiteral_cons_mid m rest hc] at he
      rw [decodeBuf_cons]
      intro hcontra
      exact ih (bufOK_tail m rest h) he
        (List.append_eq_nil.mp hcontra).2

/-- Decoding after the in-place NOT: every word is complemented, and when the
buffer ends in a literal the final decoded word is additionally masked. -/
theorem decodeBuf_notBufT (mask : Nat) (l : List Nat) (h : bufOK l = true) :
    decodeBuf (notBufT mask l) =
      if endsWithLiteral l = true then trailNeg mask (decodeBuf l)
      else (decodeBuf l).map (fun w => w ^^^ allOnes) := by
  revert h
  induction l using buf_induction with
  | hnil =>
    intro _
    rw [notBufT_nil, endsWithLiteral_nil]
    simp [decodeBuf_nil]
  | hcons m rest ih =>
    intro h
    have hL := bufOK_length_le m rest h
    by_cases hc : rest.length ≤ rlwLitCount m
    · rw [notBufT_cons_last mask m rest hc, decodeBuf_cons,
        rlwRunBit_mkRLW, rlwRunLen_mkRLW _ _ _ (rlwRunLen_le_maxRun m),
        rlwLitCount_mkRLW _ _ _ (rlwRunLen_le_maxRun m) (rlwLitCount_le_maxLit m),
        List.take_of_length_le (by rw [trailNeg_length]; omega),
        List.drop_eq_nil_of_le (by rw [trailNeg_length]; omega),
        decodeBuf_nil, List.append_nil,
        endsWithLiteral_cons_last m rest hc,
        decodeBuf_lastBlock m rest (by omega)]
      cases hrest : rest with
      | nil =>
        rw [if_neg (by decide)]
        simp [trailNeg, cleanWord_xor_allOnes]
      | cons r0 rrest =>
        rw [if_pos (by simp), trailNeg_append mask _ _ (by simp)]
        simp [cleanWord_xor_allOnes]
    · rw [notBufT_cons_mid mask m rest hc, List.cons_append, decodeBuf_cons,
        rlwRunBit_mkRLW, rlwRunLen_mkRLW _ _ _ (rlwRunLen_le_maxRun m),
        rlwLitCount_mkRLW _ _ _ (rlwRunLen_le_maxRun m) (rlwLitCount_le_maxLit m)]
      have hlen : ((rest.take (rlwLitCount m)).map (fun w => w ^^^ allOnes)).length
          = rlwLitCount m := by
        simp only [List.length_map, List.length_take]
        omega
      have htake : ((rest.take (rlwLitCount m)).map (fun w => w ^^^ allOnes)
          ++ notBufT mask (rest.drop (rlwLitCount m))).take (rlwLitCount m)
          = (rest.take (rlwLitCount m)).map (fun w => w ^^^ allOnes) :=
        List.take_left' hlen
      have hdrop : ((rest.take (rlwLitCount m)).map (fun w => w ^^^ allOnes)
          ++ notBufT mask (rest.drop (rlwLitCount m))).drop (rlwLitCount m)
          = notBufT mask (rest.drop (rlwLitCount m)) :=
        List.drop_left' hlen
      rw [htake, hdrop, ih (bufOK_tail m rest h),
        endsWithLiteral_cons_mid m rest hc, decodeBuf_cons]
      by_cases hends : endsWithLiteral (rest.drop (rlwLitCount m)) = true
      · rw [if_pos hends, if_pos hends]
        have hne := decode_ne_nil_of_ends _ (bufOK_tail m rest h) hends
        rw [trailNeg_append mask _ _ hne, List.map_append]
        simp [cleanWord_xor_allOnes, List.append_assoc]
      · rw [if_neg hends, if_neg hends]
        rw [List.map_append, List.map_append]
        simp [cleanWord_xor_allOnes, List.append_assoc]

theorem getLast?_cons_drop (m L : Nat) (rest : List Nat) (h : L < rest.length) :
    (m :: rest).getLast? = (rest.drop L).getLast? := by
  have hne : rest.drop L ≠ [] := by
    intro hc
    have hlen := congrArg List.length hc
    simp only [List.length_drop, List.length_nil] at hlen
    omega
  conv_lhs => rw [← List.take_append_drop L rest, ← List.cons_append]
  exact List.getLast?_append_of_ne_nil _ hne

/-- The in-place NOT buffer transformation is an involution, provided the
final literal (when there is one) already has no bits above the mask. -/
theorem notBufT_notBufT (mask : Nat) (l : List Nat) (h : bufOK l = true)
    (hb : ∀ w ∈ l, w < wordMax)
    (hlast : endsWithLiteral l = true → ∀ w, l.getLast? = some w → w &&& mask = w) :
    notBufT mask (notBufT mask l) = l := by
  revert h hb hlast
  induction l using buf_induction with
  | hnil => intro _ _ _; rfl
  | hcons m rest ih =>
    intro h hb hlast
    have hL := bufOK_length_le m rest h
    have hm : m < wordMax := hb m (by simp)
    by_cases hc : rest.length ≤ rlwLitCount m
    · rw [notBufT_cons_last mask m rest hc]
      rw [notBufT_cons_last mask _ _ (by
        rw [trailNeg_length,
          rlwLitCount_mkRLW _ _ _ (rlwRunLen_le_maxRun m) (rlwLitCount_le_maxLit m)]
        exact hc)]
      rw [rlwRunBit_mkRLW, rlwRunLen_mkRLW _ _ _ (rlwRunLen_le_maxRun m),
        rlwLitCount_mkRLW _ _ _ (rlwRunLen_le_maxRun m) (rlwLitCount_le_maxLit m),
        Bool.not_not, mkRLW_eta m hm]
      have hrest : trailNeg mask (trailNeg mask rest) = rest := by
        refine trailNeg_trailNeg mask rest
          (fun x hx => hb x (List.mem_cons_of_mem _ hx)) ?_
        intro w hw
        cases hr : rest with
        | nil =>
          rw [hr] at hw
          simp at hw
        | cons r0 rrest =>
          refine hlast ?_ w ?_
          · rw [endsWithLiteral_cons_last m rest hc, hr]
            simp
          · rw [hr] at hw ⊢
            rw [List.getLast?_cons_cons]
            exact hw
      rw [hrest]
    · rw [notBufT_cons_mid mask m rest hc]
      have hlen : ((rest.take (rlwLitCount m)).map (fun w => w ^^^ allOnes)).length
          = rlwLitCount m := by
        simp only [List.length_map, List.length_take]
        omega
      have hrec_len : (notBufT mask (rest.drop (rlwLitCount m))).length
          = rest.length - rlwLitCount m := by
        rw [notBufT_length mask _ (bufOK_tail m rest h)]
        simp
      rw [List.cons_append]
      rw [notBufT_cons_mid mask _ _ (by
        rw [rlwLitCount_mkRLW _ _ _ (rlwRunLen_le_maxRun m) (rlwLitCount_le_maxLit m),
          List.length_append, hlen, hrec_len]
        omega)]
      rw [rlwRunBit_mkRLW, rlwRunLen_mkRLW _ _ _ (rlwRunLen_le_maxRun m),
        rlwLitCount_mkRLW _ _ _ (rlwRunLen_le_maxRun m) (rlwLitCount_le_maxLit m),
        Bool.not_not, mkRLW_eta m hm]
      have htake : ((rest.take (rlwLitCount m)).map (fun w => w ^^^ allOnes)
          ++ notBufT mask (rest.drop (rlwLitCount m))).take (rlwLitCount m)
          = (rest.take (rlwLitCount m)).map (fun w => w ^^^ allOnes) :=
        List.take_left' hlen
      have hdrop : ((rest.take (rlwLitCount m)).map (fun w => w ^^^ allOnes)
          ++ notBufT mask (rest.drop (rlwLitCount m))).drop (rlwLitCount m)
          = notBufT mask (rest.drop (rlwLitCount m)) :=
        List.drop_left' hlen
      rw [htake, hdrop]
      have hdouble : ((rest.take (rlwLitCount m)).map (fun w => w ^^^ allOnes)).map
          (fun w => w ^^^ allOnes) = rest.take (rlwLitCount m) := by
        rw [List.map_map]
        have hpt : ∀ x ∈ rest.take (rlwLitCount m),
            ((fun w => w ^^^ allOnes) ∘ (fun w => w ^^^ allOnes)) x = id x := by
          intro x _
          show x ^^^ allOnes ^^^ allOnes = x
          rw [Nat.xor_cancel_right]
        rw [List.map_congr_left hpt, List.map_id]
      have hlast' : endsWithLiteral (rest.drop (rlwLitCount m)) = true →
          ∀ w, (rest.drop (rlwLitCount m)).getLast? = some w → w &&& mask = w := by
        intro he w hw
        refine hlast ?_ w ?_
        · rw [endsWithLiteral_cons_mid m rest hc]
          exact he
        · rw [getLast?_cons_drop m (rlwLitCount m) rest (by omega)]
          exact hw
      rw [hdouble, ih (bufOK_tail m rest h)
        (fun x hx => hb x (List.mem_cons_of_mem _ (List.mem_of_mem_drop hx))) hlast']
      rw [List.cons_append, List.take_append_drop]

/-- Well-formedness of a complete EWAH bitmap: the buffer parses into blocks
of 64-bit words, the logical bit length fits the decoded word count, a
partial final word can only come from a final literal, and no bit at or
above `bit_size` is set. -/
def ewahWF (B : EwahBitmap) : Prop :=
  bufOK B.buffer = true ∧
  (∀ w ∈ B.buffer, w < wordMax) ∧
  B.bit_size ≤ 64 * (decodeBuf B.buffer).length ∧
  64 * (decodeBuf B.buffer).length < B.bit_size + 64 ∧
  (B.bit_size % 64 ≠ 0 → endsWithLiteral B.buffer = true) ∧
  (∀ p, B.bit_size ≤ p → ewahGet B p = false)

theorem ewahGet_ge_words (B : EwahBitmap) (p : Nat)
    (h : (decodeBuf B.buffer).length ≤ p / 64) : ewahGet B p = false := by
  rw [ewahGet, List.getD_eq_default _ _ h]
  exact Nat.zero_testBit _

/-- Executable well-formedness check (the unbounded padding condition is
reduced to the decoded word range). -/
def ewahChk (B : EwahBitmap) : Bool :=
  bufOK B.buffer &&
  B.buffer.all (fun w => decide (w < wordMax)) &&
  decide (B.bit_size ≤ 64 * (decodeBuf B.buffer).length) &&
  decide (64 * (decodeBuf B.buffer).length < B.bit_size + 64) &&
  (decide (B.bit_size % 64 = 0) || endsWithLiteral B.buffer) &&
  (List.range (64 * (decodeBuf B.buffer).length)).all
    (fun p => !decide (B.bit_size ≤ p) || !ewahGet B p)

theorem ewahWF_of_chk (B : EwahBitmap) (h : ewahChk B = true) : ewahWF B := by
  rw [ewahChk] at h
  simp only [Bool.and_eq_true, Bool.or_eq_true, List.all_eq_true, List.mem_range,
    decide_eq_true_eq, Bool.not_eq_true', decide_eq_false_iff_not] at h
  obtain ⟨⟨⟨⟨⟨h1, h2⟩, h3⟩, h4⟩, h5⟩, h6⟩ := h
  refine ⟨h1, h2, h3, h4, ?_, ?_⟩
  · intro hz
    rcases h5 with h5 | h5
    · exact absurd h5 hz
    · exact h5
  · intro p hp
    by_cases hcase : p < 64 * (decodeBuf B.buffer).length
    · rcases h6 p hcase with h7 | h7
      · exact absurd hp h7
      · exact h7
    · refine ewahGet_ge_words B p ?_
      rw [Nat.le_div_iff_mul_le (by norm_num)]
      omega

/-- Under well-formedness the decoded word count is exactly
ceil(bit_size/64). -/
theorem ewahWF_len (B : EwahBitmap) (h : ewahWF B) :
    (decodeBuf B.buffer).length = (B.bit_size + 63) / 64 := by
  obtain ⟨_, _, h3, h4, _, _⟩ := h
  omega

/-- The last decoded word of a buffer ending in a literal is that literal. -/
theorem decodeBuf_getLast (l : List Nat) (h : bufOK l = true)
    (he : endsWithLiteral l = true) : (decodeBuf l).getLast? = l.getLast? := by
  revert h he
  induction l using buf_induction with
  | hnil =>
    intro _ he
    rw [endsWithLiteral_nil] at he
    cases he
  | hcons m rest ih =>
    intro h he
    have hL := bufOK_length_le m rest h
    by_cases hc : rest.length ≤ rlwLitCount m
    · rw [endsWithLiteral_cons_last m rest hc, decide_eq_true_eq] at he
      rw [decodeBuf_lastBlock m rest (by omega)]
      cases hr : rest with
      | nil =>
        rw [hr] at he
        simp at he
      | cons r0 rrest =>
        rw [List.getLast?_append_of_ne_nil _ (by simp), List.getLast?_cons_cons]
    · rw [endsWithLiteral_cons_mid m rest hc] at he
      rw [decodeBuf_cons]
      have hne := decode_ne_nil_of_ends _ (bufOK_tail m rest h) he
      rw [List.getLast?_append_of_ne_nil _ hne, ih (bufOK_tail m rest h) he,
        getLast?_cons_drop m (rlwLitCount m) rest (by omega)]

/-- Under well-formedness the final literal of the buffer already has no
bits above the valid-low-bits mask. -/
theorem ewahWF_lastWord_masked (B : EwahBitmap) (h : ewahWF B)
    (he : endsWithLiteral B.buffer = true) :
    ∀ w, B.buffer.getLast? = some w →
      w &&& (if B.bit_size % 64 = 0 then allOnes
             else 2 ^ (B.bit_size % 64) - 1) = w := by
  obtain ⟨h1, h2, h3, h4, h5, h6⟩ := h
  intro w hw
  rw [← decodeBuf_getLast _ h1 he] at hw
  have hne : decodeBuf B.buffer ≠ [] := by
    intro hnil
    rw [hnil] at hw
    simp at hw
  have hlen_pos : 0 < (decodeBuf B.buffer).length := List.length_pos.mpr hne
  rw [List.getLast?_eq_getElem?] at hw
  have hw' : (decodeBuf B.buffer).getD ((decodeBuf B.buffer).length - 1) 0 = w := by
    rw [List.getD_eq_getElem?_getD, hw]
    rfl
  have hmem : w ∈ decodeBuf B.buffer := List.getElem?_mem hw
  have hwlt : w < wordMax := decodeBuf_bounded _ h1 h2 w hmem
  by_cases hz : B.bit_size % 64 = 0
  · rw [if_pos hz]
    exact land_allOnes w hwlt
  · rw [if_neg hz]
    refine Nat.eq_of_testBit_eq ?_
    intro j
    rw [Nat.testBit_land, Nat.testBit_two_pow_sub_one]
    by_cases hj : j < B.bit_size % 64
    · simp [hj]
    · by_cases hj64 : j < 64
      · have hp : B.bit_size ≤ 64 * ((decodeBuf B.buffer).length - 1) + j := by omega
        have hget := h6 _ hp
        rw [ewahGet] at hget
        have hdiv : (64 * ((decodeBuf B.buffer).length - 1) + j) / 64
            = (decodeBuf B.buffer).length - 1 := by omega
        have hmod : (64 * ((decodeBuf B.buffer).length - 1) + j) % 64 = j := by omega
        rw [hdiv, hmod, hw'] at hget
        rw [hget]
        simp [hj]
      · rw [testBit_ge_64 w j hwlt (by omega)]
        simp [hj]

theorem decode_ewah_not (B : EwahBitmap) (h : bufOK B.buffer = true) :
    decodeBuf (ewah_not B).buffer =
      if endsWithLiteral B.buffer = true
      then trailNeg (if B.bit_size % 64 = 0 then allOnes else 2 ^ (B.bit_size % 64) - 1)
             (decodeBuf B.buffer)
      else (decodeBuf B.buffer).map (fun w => w ^^^ allOnes) :=
  decodeBuf_notBufT _ _ h

theorem decode_ewah_not_length (B : EwahBitmap) (h : bufOK B.buffer = true) :
    (decodeBuf (ewah_not B).buffer).length = (decodeBuf B.buffer).length := by
  rw [decode_ewah_not B h]
  split
  · rw [trailNeg_length]
  · rw [List.length_map]

theorem getD_map_xor (l : List Nat) (k : Nat) (hk : k < l.length) :
    (l.map (fun w => w ^^^ allOnes)).getD k 0 = l.getD k 0 ^^^ allOnes := by
  rw [List.getD_eq_getElem _ _ (by simpa using hk), List.getElem_map,
    List.getD_eq_getElem _ _ hk]

/-- Below `bit_size`, the in-place NOT complements every bit. -/
theorem ewah_not_get_lt (B : EwahBitmap) (h : ewahWF B) (p : Nat)
    (hp : p < B.bit_size) : ewahGet (ewah_not B) p = !ewahGet B p := by
  obtain ⟨h1, h2, h3, h4, h5, h6⟩ := h
  have hk : p / 64 < (decodeBuf B.buffer).length := by omega
  have hmod : p % 64 < 64 := Nat.mod_lt _ (by norm_num)
  rw [ewahGet, ewahGet, decode_ewah_not B h1]
  by_cases hends : endsWithLiteral B.buffer = true
  · rw [if_pos hends, trailNeg_getD _ _ _ hk]
    by_cases hlast : p / 64 + 1 = (decodeBuf B.buffer).length
    · rw [if_pos hlast, Nat.testBit_land, Nat.testBit_xor,
        testBit_allOnes _ hmod, Bool.xor_true]
      by_cases hz : B.bit_size % 64 = 0
      · rw [if_pos hz, testBit_allOnes _ hmod, Bool.and_true]
      · rw [if_neg hz, Nat.testBit_two_pow_sub_one]
        have hjlt : p % 64 < B.bit_size % 64 := by omega
        simp [hjlt]
    · rw [if_neg hlast, Nat.testBit_xor, testBit_allOnes _ hmod, Bool.xor_true]
  · rw [if_neg hends, getD_map_xor _ _ hk, Nat.testBit_xor,
      testBit_allOnes _ hmod, Bool.xor_true]

/-- At or above `bit_size`, the in-place NOT leaves no observable set bit:
the final literal is truncated to the valid low bits. -/
theorem ewah_not_get_ge (B : EwahBitmap) (h : ewahWF B) (p : Nat)
    (hp : B.bit_size ≤ p) : ewahGet (ewah_not B) p = false := by
  obtain ⟨h1, h2, h3, h4, h5, h6⟩ := h
  have hmod : p % 64 < 64 := Nat.mod_lt _ (by norm_num)
  by_cases hk : (decodeBuf B.buffer).length ≤ p / 64
  · refine ewahGet_ge_words (ewah_not B) p ?_
    rw [decode_ewah_not_length B h1]
    exact hk
  · have hklt : p / 64 < (decodeBuf B.buffer).length := by omega
    have hz : B.bit_size % 64 ≠ 0 := by omega
    have hends := h5 hz
    have hlast : p / 64 + 1 = (decodeBuf B.buffer).length := by omega
    have hjge : B.bit_size % 64 ≤ p % 64 := by omega
    rw [ewahGet, decode_ewah_not B h1, if_pos hends, trailNeg_getD _ _ _ hklt,
      if_pos hlast, if_neg hz, Nat.testBit_land, Nat.testBit_two_pow_sub_one]
    simp [Nat.not_lt.mpr hjge]

/-- Modelled from the spec: the shared combiner skeleton.  The two
compressed inputs are merged as their zero-extended uncompressed word
streams combined word-wise by `op` over `max(ceil(bit_size/64))` words,
emitted through the shared builder; the output's logical length is the
larger input's `bit_size`. -/
def ewahCombine (op : Nat → Nat → Nat) (A B : EwahBitmap) : EwahBitmap :=
  { buildFromWords ewah_new
      ((List.range (max ((A.bit_size + 63) / 64) ((B.bit_size + 63) / 64))).map
        (fun k => op ((ewahWords A).getD k 0) ((ewahWords B).getD k 0))) with
    bit_size := max A.bit_size B.bit_size }

/-- Modelled from the spec: the OR combiner, `op` is `a | b`. -/
def ewah_or (A B : EwahBitmap) : EwahBitmap :=
  ewahCombine (fun a b => a ||| b) A B

/-- Modelled from the spec: the AND combiner, `op` is `a & b`. -/
def ewah_and (A B : EwahBitmap) : EwahBitmap :=
  ewahCombine (fun a b => a &&& b) A B

/-- Modelled from the spec: the XOR combiner, `op` is `a ^ b`. -/
def ewah_xor (A B : EwahBitmap) : EwahBitmap :=
  ewahCombine (fun a b => a ^^^ b) A B

/-- Modelled from the spec: the AND-NOT combiner, `op` is `a & ~b` with the
first input as minuend. -/
def ewah_and_not (A B : EwahBitmap) : EwahBitmap :=
  ewahCombine (fun a b => a &&& (b ^^^ allOnes)) A B

theorem ewahWords_getD_lt (C : EwahBitmap) (h : bufOK C.buffer = true)
    (hb : ∀ w ∈ C.buffer, w < wordMax) (k : Nat) :
    (ewahWords C).getD k 0 < wordMax := by
  by_cases hk : k < (ewahWords C).length
  · refine decodeBuf_bounded _ h hb _ ?_
    show (ewahWords C).getD k 0 ∈ decodeBuf C.buffer
    rw [show ewahWords C = decodeBuf C.buffer from rfl,
      List.getD_eq_getElem _ _ (show k < (decodeBuf C.buffer).length from hk)]
    exact List.getElem_mem _
  · rw [List.getD_eq_default _ _ (by omega)]
    norm_num [wordMax]

theorem getD_range_map (f : Nat → Nat) (n k : Nat) (hk : k < n) :
    ((List.range n).map f).getD k 0 = f k := by
  rw [List.getD_eq_getElem?_getD, List.getElem?_map, List.getElem?_range hk]
  rfl

/-- The combiner's output decodes to exactly the word-wise combination of
the zero-extended inputs. -/
theorem ewahCombine_decode (op : Nat → Nat → Nat) (A B : EwahBitmap)
    (hA : bufOK A.buffer = true) (hAb : ∀ w ∈ A.buffer, w < wordMax)
    (hB : bufOK B.buffer = true) (hBb : ∀ w ∈ B.buffer, w < wordMax)
    (hop : ∀ a b, a < wordMax → b < wordMax → op a b < wordMax) :
    decodeBuf (ewahCombine op A B).buffer =
      (List.range (max ((A.bit_size + 63) / 64) ((B.bit_size + 63) / 64))).map
        (fun k => op ((ewahWords A).getD k 0) ((ewahWords B).getD k 0)) := by
  have hbnd : ∀ w ∈ (List.range (max ((A.bit_size + 63) / 64) ((B.bit_size + 63) / 64))).map
      (fun k => op ((ewahWords A).getD k 0) ((ewahWords B).getD k 0)), w < wordMax := by
    intro w hw
    rcases List.mem_map.mp hw with ⟨k, _, hke⟩
    rw [← hke]
    exact hop _ _ (ewahWords_getD_lt A hA hAb k) (ewahWords_getD_lt B hB hBb k)
  obtain ⟨_, g2, _⟩ := buildFromWords_spec _ _ (le_refl _) ewah_new builderInv_ewah_new hbnd
  show decodeBuf (buildFromWords ewah_new _).buffer = _
  rw [g2, decodeBuf_ewah_new, List.nil_append]

/-- Bit `p` of a combiner's output is `op` of the corresponding
(zero-extended) input words, for `p` within the merged word range. -/
theorem ewahCombine_get (op : Nat → Nat → Nat) (A B : EwahBitmap)
    (hA : bufOK A.buffer = true) (hAb : ∀ w ∈ A.buffer, w < wordMax)
    (hB : bufOK B.buffer = true) (hBb : ∀ w ∈ B.buffer, w < wordMax)
    (hop : ∀ a b, a < wordMax → b < wordMax → op a b < wordMax)
    (p : Nat) (hp : p / 64 < max ((A.bit_size + 63) / 64) ((B.bit_size + 63) / 64)) :
    ewahGet (ewahCombine op A B) p
      = (op ((ewahWords A).getD (p / 64) 0)
           ((ewahWords B).getD (p / 64) 0)).testBit (p % 64) := by
  rw [ewahGet, ewahCombine_decode op A B hA hAb hB hBb hop, getD_range_map _ _ _ hp]

theorem ewah_or_get (A B : EwahBitmap)
    (hA : bufOK A.buffer = true) (hAb : ∀ w ∈ A.buffer, w < wordMax)
    (hB : bufOK B.buffer = true) (hBb : ∀ w ∈ B.buffer, w < wordMax)
    (p : Nat) (hp : p / 64 < max ((A.bit_size + 63) / 64) ((B.bit_size + 63) / 64)) :
    ewahGet (ewah_or A B) p = (ewahGet A p || ewahGet B p) := by
  rw [ewah_or, ewahCombine_get _ A B hA hAb hB hBb
    (fun a b ha hb => by
      rw [wordMax_two_pow] at *
      exact Nat.or_lt_two_pow ha hb) p hp]
  rw [Nat.testBit_lor, ewahGet, ewahGet]
  rfl

theorem ewah_and_get (A B : EwahBitmap)
    (hA : bufOK A.buffer = true) (hAb : ∀ w ∈ A.buffer, w < wordMax)
    (hB : bufOK B.buffer = true) (hBb : ∀ w ∈ B.buffer, w < wordMax)
    (p : Nat) (hp : p / 64 < max ((A.bit_size + 63) / 64) ((B.bit_size + 63) / 64)) :
    ewahGet (ewah_and A B) p = (ewahGet A p && ewahGet B p) := by
  rw [ewah_and, ewahCombine_get _ A B hA hAb hB hBb
    (fun a b ha _ => land_lt_of_lt_left a b ha) p hp]
  rw [Nat.testBit_land, ewahGet, ewahGet]
  rfl

theorem ewah_xor_get (A B : EwahBitmap)
    (hA : bufOK A.buffer = true) (hAb : ∀ w ∈ A.buffer, w < wordMax)
    (hB : bufOK B.buffer = true) (hBb : ∀ w ∈ B.buffer, w < wordMax)
    (p : Nat) (hp : p / 64 < max ((A.bit_size + 63) / 64) ((B.bit_size + 63) / 64)) :
    ewahGet (ewah_xor A B) p = (ewahGet A p ^^ ewahGet B p) := by
  rw [ewah_xor, ewahCombine_get _ A B hA hAb hB hBb
    (fun a b ha hb => by
      rw [wordMax_two_pow] at *
      exact Nat.xor_lt_two_pow ha hb) p hp]
  rw [Nat.testBit_xor, ewahGet, ewahGet]
  rfl

theorem ewah_and_not_get (A B : EwahBitmap)
    (hA : bufOK A.buffer = true) (hAb : ∀ w ∈ A.buffer, w < wordMax)
    (hB : bufOK B.buffer = true) (hBb : ∀ w ∈ B.buffer, w < wordMax)
    (p : Nat) (hp : p / 64 < max ((A.bit_size + 63) / 64) ((B.bit_size + 63) / 64)) :
    ewahGet (ewah_and_not A B) p = (ewahGet A p && !ewahGet B p) := by
  rw [ewah_and_not, ewahCombine_get _ A B hA hAb hB hBb
    (fun a b ha _ => land_lt_of_lt_left _ _ ha) p hp]
  rw [Nat.testBit_land, Nat.testBit_xor,
    testBit_allOnes _ (Nat.mod_lt _ (by norm_num)), Bool.xor_true, ewahGet, ewahGet]
  rfl

theorem set_getD_self (l : List Nat) (n : Nat) (h : n < l.length) :
    l.set n (l.getD n 0) = l := by
  refine List.ext_getElem? ?_
  intro i
  rw [List.getElem?_set]
  by_cases hi : n = i
  · subst hi
    rw [if_pos rfl, if_pos h, List.getD_eq_getElem _ _ h, List.getElem?_eq_getElem h]
  · rw [if_neg hi]

theorem lor_two_pow_self (w j : Nat) (h : w.testBit j = true) : w ||| 2 ^ j = w := by
  refine Nat.eq_of_testBit_eq ?_
  intro k
  rw [Nat.testBit_lor, Nat.testBit_two_pow]
  by_cases hk : j = k
  · subst hk
    simp [h]
  · simp [hk]

theorem ewah_set_none (B : EwahBitmap) (i : Nat) (h : i + 1 < B.bit_size) :
    ewah_set B i = none := by
  rw [ewah_set, if_pos h]

/-- The accepted-path result of `ewah_set` before the `bit_size` update. -/
def ewah_set_body (B : EwahBitmap) (i : Nat) : EwahBitmap :=
  if i / 64 + 1 - (B.bit_size + 63) / 64 > 0 then
    ewah_add_literal
      (if i / 64 + 1 - (B.bit_size + 63) / 64 > 1 then
        (ewah_add_empty_words B false (i / 64 + 1 - (B.bit_size + 63) / 64 - 1)).1
      else B) (2 ^ (i % 64))
  else
    if rlwLitCount (activeRLW B) = 0 then
      ewah_add_literal B (2 ^ (i % 64))
    else
      { B with buffer := (B.buffer.set (B.buffer.length - 1)
          (B.buffer.getD (B.buffer.length - 1) 0 ||| 2 ^ (i % 64))) }

theorem ewah_set_eq (B : EwahBitmap) (i : Nat) (h : ¬ i + 1 < B.bit_size) :
    ewah_set B i = some { ewah_set_body B i with bit_size := i + 1 } := by
  rw [ewah_set, if_neg h]
  rfl

/-- `ewah_set` keeps the builder invariant whenever it accepts the call. -/
theorem ewah_set_inv (B : EwahBitmap) (i : Nat) (h : builderInv B = true)
    (B' : EwahBitmap) (hset : ewah_set B i = some B') : builderInv B' = true := by
  have hpow : (2 : Nat) ^ (i % 64) < wordMax := by
    rw [wordMax_two_pow]
    exact Nat.pow_lt_pow_right (by norm_num) (Nat.mod_lt _ (by norm_num))
  by_cases hlt : i + 1 < B.bit_size
  · rw [ewah_set_none B i hlt] at hset
    cases hset
  · rw [ewah_set_eq B i hlt] at hset
    injection hset with hset
    rw [← hset]
    have hbs : ∀ X : EwahBitmap, builderInv { X with bit_size := i + 1 } = builderInv X :=
      fun X => rfl
    rw [hbs, ewah_set_body]
    by_cases hd : i / 64 + 1 - (B.bit_size + 63) / 64 > 0
    · rw [if_pos hd]
      by_cases hd1 : i / 64 + 1 - (B.bit_size + 63) / 64 > 1
      · rw [if_pos hd1]
        exact (ewah_add_literal_spec _ _ (ewah_add_empty_words_spec B false _ h).1 hpow).1
      · rw [if_neg hd1]
        exact (ewah_add_literal_spec _ _ h hpow).1
    · rw [if_neg hd]
      by_cases hl0 : rlwLitCount (activeRLW B) = 0
      · rw [if_pos hl0]
        exact (ewah_add_literal_spec _ _ h hpow).1
      · rw [if_neg hl0]
        have hL : rlwLitCount (B.buffer.getD B.rlw 0) ≠ 0 := hl0
        rw [builderInv] at h ⊢
        simp only [Bool.and_eq_true, decide_eq_true_eq, List.all_eq_true] at h ⊢
        obtain ⟨⟨⟨hrlw, hok⟩, hlen⟩, hall⟩ := h
        refine ⟨⟨⟨?_, ?_⟩, ?_⟩, ?_⟩
        · rw [List.length_set]
          exact hrlw
        · rw [List.take_set_of_lt _ B.buffer (by omega)]
          exact hok
        · rw [List.length_set, List.getD_eq_getElem?_getD,
            List.getElem?_set_ne (by omega), ← List.getD_eq_getElem?_getD]
          exact hlen
        · intro x hx
          rcases List.mem_or_eq_of_mem_set hx with hx | hx
          · exact hall x hx
          · rw [hx]
            have h1 : B.buffer.getD (B.buffer.length - 1) 0 < wordMax := by
              by_cases hc : B.buffer.length - 1 < B.buffer.length
              · rw [List.getD_eq_getElem _ _ hc]
                have := hall _ (List.getElem_mem hc)
                simpa using this
              · rw [List.getD_eq_default _ _ (by omega)]
                norm_num [wordMax]
            rw [wordMax_two_pow] at h1 hpow ⊢
            exact Nat.or_lt_two_pow h1 hpow

/-- Setting again the position set last leaves the bitmap unchanged. -/
theorem ewah_set_idem (B : EwahBitmap) (i : Nat)
    (hbs : B.bit_size = i + 1)
    (hl : 0 < rlwLitCount (activeRLW B))
    (hbit : (B.buffer.getD (B.buffer.length - 1) 0).testBit (i % 64) = true) :
    ewah_set B i = some B := by
  have hlt : ¬ i + 1 < B.bit_size := by omega
  rw [ewah_set_eq B i hlt]
  have hd : ¬ i / 64 + 1 - (B.bit_size + 63) / 64 > 0 := by
    rw [hbs]
    omega
  rw [ewah_set_body, if_neg hd, if_neg (by omega)]
  have hne : B.buffer ≠ [] := by
    intro hnil
    rw [activeRLW, hnil] at hl
    norm_num [List.getD, rlwLitCount] at hl
  have hlen : 0 < B.buffer.length := List.length_pos.mpr hne
  rw [lor_two_pow_self _ _ hbit, set_getD_self _ _ (by omega), ← hbs]

/-- C1: converting an uncompressed bitmap to a compressed EWAH bitmap with
`bitmap_to_ewah` and back with `ewah_to_bitmap` is the identity on every bit
position below the compressed bitmap's `bit_size`. -/
theorem claim_C1 (U : Bitmap) (hb : ∀ w ∈ U.words, w < wordMax) :
    ∀ p, p < (bitmap_to_ewah U).bit_size →
      bitmap_get (ewah_to_bitmap (bitmap_to_ewah U)) p = bitmap_get U p := by
  obtain ⟨g1, g2, g3⟩ := bitmap_to_ewah_spec U hb
  have hbuf := builderInv_bufOK _ g1
  have hlen : (decodeBuf (bitmap_to_ewah U).buffer).length
      = ((bitmap_to_ewah U).bit_size + 63) / 64 := by
    rw [g2, g3]
    omega
  have hwords := ewah_to_bitmap_words _ hbuf hlen
  intro p _
  rw [bitmap_get, bitmap_get, hwords, g2]

theorem claim_C1_witness :
    (0 : Nat) < (bitmap_to_ewah ({ words := [5, 0], word_alloc := 2 } : Bitmap)).bit_size ∧
    bitmap_get (ewah_to_bitmap (bitmap_to_ewah
        ({ words := [5, 0], word_alloc := 2 } : Bitmap))) 0
      = bitmap_get ({ words := [5, 0], word_alloc := 2 } : Bitmap) 0 :=
  ⟨by decide, claim_C1 { words := [5, 0], word_alloc := 2 } (by decide) 0 (by decide)⟩

/-- C2: after `ewah_bit_iterator_init`, driving `ewah_bit_iterator_next`
yields exactly the positions of the set bits of the bitmap, strictly
ascending and duplicate-free, and signals exhaustion (returns false) once
all are consumed. -/
theorem claim_C2 (B : EwahBitmap) (h : bufOK B.buffer = true) (fuel : Nat)
    (hfuel : (setPositions (decodeBuf B.buffer)).length < fuel) :
    (bitIterRun fuel (ewah_bit_iterator_init B)).1 = setPositions (decodeBuf B.buffer) ∧
    (bitIterRun fuel (ewah_bit_iterator_init B)).2 = true ∧
    List.Sorted (· < ·) (bitIterRun fuel (ewah_bit_iterator_init B)).1 ∧
    (bitIterRun fuel (ewah_bit_iterator_init B)).1.Nodup ∧
    (∀ p, p ∈ (bitIterRun fuel (ewah_bit_iterator_init B)).1 ↔ ewahGet B p = true) := by
  obtain ⟨hok, hrem⟩ := ewah_bit_iterator_init_spec B h
  have hrun := bitIterRun_spec fuel _ hok
  rw [hrem] at hrun
  have htake : (setPositions (decodeBuf B.buffer)).take fuel
      = setPositions (decodeBuf B.buffer) :=
    List.take_of_length_le (by omega)
  rw [htake] at hrun
  rw [hrun]
  refine ⟨rfl, by simp [hfuel], setPositions_sorted _, (setPositions_sorted _).nodup, ?_⟩
  intro p
  show p ∈ setPositions (decodeBuf B.buffer) ↔ _
  rw [mem_setPositions]
  exact Iff.rfl

theorem claim_C2_witness :
    (bitIterRun 3 (ewah_bit_iterator_init (ewah_add_dirty_words ewah_new [5] false))).1
        = setPositions (decodeBuf (ewah_add_dirty_words ewah_new [5] false).buffer) ∧
    (bitIterRun 3 (ewah_bit_iterator_init (ewah_add_dirty_words ewah_new [5] false))).2
        = true ∧
    List.Sorted (· < ·)
      (bitIterRun 3 (ewah_bit_iterator_init (ewah_add_dirty_words ewah_new [5] false))).1 ∧
    (bitIterRun 3 (ewah_bit_iterator_init (ewah_add_dirty_words ewah_new [5] false))).1.Nodup ∧
    (∀ p, p ∈ (bitIterRun 3 (ewah_bit_iterator_init
          (ewah_add_dirty_words ewah_new [5] false))).1
        ↔ ewahGet (ewah_add_dirty_words ewah_new [5] false) p = true) :=
  claim_C2 (ewah_add_dirty_words ewah_new [5] false) (by decide) 3 (by decide)

/-- C3: on a non-empty bitmap the word iterator yields exactly
ceil(bit_size/64) words (the decoded word sequence), then signals
exhaustion, and the yielded words agree with the bitmap on every bit
below `bit_size`. -/
theorem claim_C3 (B : EwahBitmap) (h : ewahWF B) (_hpos : 0 < B.bit_size) :
    (iterRun ((B.bit_size + 63) / 64) (ewah_iterator_init B)).1
        = decodeBuf B.buffer ∧
    (iterRun ((B.bit_size + 63) / 64) (ewah_iterator_init B)).1.length
        = (B.bit_size + 63) / 64 ∧
    (iterRun ((B.bit_size + 63) / 64 + 1) (ewah_iterator_init B)).2 = true ∧
    ∀ p, p < B.bit_size →
      ((iterRun ((B.bit_size + 63) / 64) (ewah_iterator_init B)).1.getD (p / 64) 0).testBit
          (p % 64) = ewahGet B p := by
  obtain ⟨hok, hrem⟩ := ewah_iterator_init_spec B h.1
  have hlen := ewahWF_len B h
  have h1 : (iterRun ((B.bit_size + 63) / 64) (ewah_iterator_init B)).1
      = decodeBuf B.buffer := by
    rw [iterRun_spec _ _ hok, hrem]
    show (decodeBuf B.buffer).take _ = _
    rw [← hlen]
    exact List.take_of_length_le (le_refl _)
  refine ⟨h1, ?_, ?_, ?_⟩
  · rw [h1, hlen]
  · rw [iterRun_spec _ _ hok, hrem]
    show decide ((decodeBuf B.buffer).length < (B.bit_size + 63) / 64 + 1) = true
    rw [hlen]
    simp
  · intro p _
    rw [h1]
    rfl

theorem claim_C3_witness :
    (0 : Nat) < ({ buffer := [8589934592, 3], alloc_size := 2, bit_size := 2, rlw := 0 }
        : EwahBitmap).bit_size ∧
    (iterRun ((({ buffer := [8589934592, 3], alloc_size := 2, bit_size := 2, rlw := 0 }
          : EwahBitmap).bit_size + 63) / 64)
        (ewah_iterator_init
          ({ buffer := [8589934592, 3], alloc_size := 2, bit_size := 2, rlw := 0 }
            : EwahBitmap))).1
      = decodeBuf ({ buffer := [8589934592, 3], alloc_size := 2, bit_size := 2, rlw := 0 }
          : EwahBitmap).buffer :=
  ⟨by decide,
   (claim_C3 { buffer := [8589934592, 3], alloc_size := 2, bit_size := 2, rlw := 0 }
     (ewahWF_of_chk _ (by decide)) (by decide)).1⟩

/-- C4 (amended): serialization followed by deserialization restores the
buffer, `bit_size` and `rlw` index, provided `bit_size`, the word count and
the `rlw` index each fit the 32-bit on-wire fields. -/
theorem claim_C4 (B : EwahBitmap)
    (hbits : B.bit_size < 4294967296)
    (hnw : B.buffer.length < 4294967296)
    (hrlw : B.rlw < 4294967296)
    (hw : ∀ w ∈ B.buffer, w < wordMax) :
    ewah_deserialize (ewah_serialize B)
      = some { buffer := B.buffer, alloc_size := B.buffer.length,
               bit_size := B.bit_size, rlw := B.rlw } :=
  ewah_serialize_roundtrip B hbits hnw hrlw hw

theorem claim_C4_witness :
    ewah_deserialize (ewah_serialize (ewah_add_dirty_words ewah_new [5] false))
      = some { buffer := (ewah_add_dirty_words ewah_new [5] false).buffer,
               alloc_size := (ewah_add_dirty_words ewah_new [5] false).buffer.length,
               bit_size := (ewah_add_dirty_words ewah_new [5] false).bit_size,
               rlw := (ewah_add_dirty_words ewah_new [5] false).rlw } :=
  claim_C4 (ewah_add_dirty_words ewah_new [5] false)
    (by decide) (by decide) (by decide) (by decide)

/-- C4 (counterexample to the unamended claim): a bitmap of 2^26 clean zero
words, as produced by `ewah_add_empty_words`, has `bit_size = 2^32`; the
32-bit `bit_size` field wraps to 0 on the wire, so the round trip does not
restore `bit_size`. -/
theorem claim_C4_cex :
    (ewah_add_empty_words ewah_new false 67108864).1.bit_size = 4294967296 ∧
    ewah_deserialize (ewah_serialize (ewah_add_empty_words ewah_new false 67108864).1)
      = some ({ buffer := [134217728], alloc_size := 1, bit_size := 0, rlw := 0 }
          : EwahBitmap) := by
  constructor
  · decide
  · decide

/-- C5: every combiner's output has `bit_size` equal to the larger input's,
and its bits are the word-wise operation over the inputs with the shorter
input read as zero-extended. -/
theorem claim_C5 (A B : EwahBitmap)
    (hA : bufOK A.buffer = true) (hAb : ∀ w ∈ A.buffer, w < wordMax)
    (hB : bufOK B.buffer = true) (hBb : ∀ w ∈ B.buffer, w < wordMax) :
    (ewah_or A B).bit_size = max A.bit_size B.bit_size ∧
    (ewah_and A B).bit_size = max A.bit_size B.bit_size ∧
    (ewah_xor A B).bit_size = max A.bit_size B.bit_size ∧
    (ewah_and_not A B).bit_size = max A.bit_size B.bit_size ∧
    ∀ p, p < max A.bit_size B.bit_size →
      ewahGet (ewah_or A B) p = (ewahGet A p || ewahGet B p) ∧
      ewahGet (ewah_and A B) p = (ewahGet A p && ewahGet B p) ∧
      ewahGet (ewah_xor A B) p = (ewahGet A p ^^ ewahGet B p) ∧
      ewahGet (ewah_and_not A B) p = (ewahGet A p && !ewahGet B p) := by
  refine ⟨rfl, rfl, rfl, rfl, ?_⟩
  intro p hp
  have hp64 : p / 64 < max ((A.bit_size + 63) / 64) ((B.bit_size + 63) / 64) := by
    omega
  exact ⟨ewah_or_get A B hA hAb hB hBb p hp64, ewah_and_get A B hA hAb hB hBb p hp64,
    ewah_xor_get A B hA hAb hB hBb p hp64, ewah_and_not_get A B hA hAb hB hBb p hp64⟩

theorem claim_C5_witness :
    (ewah_or (ewah_add_dirty_words ewah_new [5] false)
        (ewah_add_dirty_words ewah_new [3] false)).bit_size
      = max (ewah_add_dirty_words ewah_new [5] false).bit_size
          (ewah_add_dirty_words ewah_new [3] false).bit_size ∧
    (ewah_and (ewah_add_dirty_words ewah_new [5] false)
        (ewah_add_dirty_words ewah_new [3] false)).bit_size
      = max (ewah_add_dirty_words ewah_new [5] false).bit_size
          (ewah_add_dirty_words ewah_new [3] false).bit_size ∧
    (ewah_xor (ewah_add_dirty_words ewah_new [5] false)
        (ewah_add_dirty_words ewah_new [3] false)).bit_size
      = max (ewah_add_dirty_words ewah_new [5] false).bit_size
          (ewah_add_dirty_words ewah_new [3] false).bit_size ∧
    (ewah_and_not (ewah_add_dirty_words ewah_new [5] false)
        (ewah_add_dirty_words ewah_new [3] false)).bit_size
      = max (ewah_add_dirty_words ewah_new [5] false).bit_size
          (ewah_add_dirty_words ewah_new [3] false).bit_size ∧
    ∀ p, p < max (ewah_add_dirty_words ewah_new [5] false).bit_size
        (ewah_add_dirty_words ewah_new [3] false).bit_size →
      ewahGet (ewah_or (ewah_add_dirty_words ewah_new [5] false)
          (ewah_add_dirty_words ewah_new [3] false)) p
        = (ewahGet (ewah_add_dirty_words ewah_new [5] false) p
            || ewahGet (ewah_add_dirty_words ewah_new [3] false) p) ∧
      ewahGet (ewah_and (ewah_add_dirty_words ewah_new [5] false)
          (ewah_add_dirty_words ewah_new [3] false)) p
        = (ewahGet (ewah_add_dirty_words ewah_new [5] false) p
            && ewahGet (ewah_add_dirty_words ewah_new [3] false) p) ∧
      ewahGet (ewah_xor (ewah_add_dirty_words ewah_new [5] false)
          (ewah_add_dirty_words ewah_new [3] false)) p
        = (ewahGet (ewah_add_dirty_words ewah_new [5] false) p
            ^^ ewahGet (ewah_add_dirty_words ewah_new [3] false) p) ∧
      ewahGet (ewah_and_not (ewah_add_dirty_words ewah_new [5] false)
          (ewah_add_dirty_words ewah_new [3] false)) p
        = (ewahGet (ewah_add_dirty_words ewah_new [5] false) p
            && !ewahGet (ewah_add_dirty_words ewah_new [3] false) p) :=
  claim_C5 (ewah_add_dirty_words ewah_new [5] false)
    (ewah_add_dirty_words ewah_new [3] false)
    (by decide) (by decide) (by decide) (by decide)

/-- C6 (amended): `ewah_and_not A B` agrees with `ewah_and A (ewah_not B)`
on every bit position below `B`'s `bit_size`; beyond it the two can differ,
because `ewah_not` cannot introduce set bits past `B.bit_size` while AND-NOT
keeps any set bit of `A` there. -/
theorem claim_C6 (A B : EwahBitmap)
    (hA : bufOK A.buffer = true) (hAb : ∀ w ∈ A.buffer, w < wordMax)
    (hB : ewahWF B) :
    ∀ p, p < B.bit_size →
      ewahGet (ewah_and_not A B) p = ewahGet (ewah_and A (ewah_not B)) p := by
  intro p hp
  have hnotB_ok : bufOK (ewah_not B).buffer = true := notBufT_bufOK _ _ hB.1
  have hnotB_b : ∀ w ∈ (ewah_not B).buffer, w < wordMax :=
    notBufT_bounded _ _ hB.1 hB.2.1
  have hmax : p / 64 < max ((A.bit_size + 63) / 64) ((B.bit_size + 63) / 64) := by
    omega
  rw [ewah_and_not_get A B hA hAb hB.1 hB.2.1 p hmax]
  rw [ewah_and_get A (ewah_not B) hA hAb hnotB_ok hnotB_b p hmax]
  rw [ewah_not_get_lt B hB p hp]

theorem claim_C6_witness :
    (0 : Nat) < ({ buffer := [8589934592, 3], alloc_size := 2, bit_size := 2, rlw := 0 }
        : EwahBitmap).bit_size ∧
    ewahGet (ewah_and_not (ewah_add_dirty_words ewah_new [5] false)
        ({ buffer := [8589934592, 3], alloc_size := 2, bit_size := 2, rlw := 0 }
          : EwahBitmap)) 0
      = ewahGet (ewah_and (ewah_add_dirty_words ewah_new [5] false)
          (ewah_not ({ buffer := [8589934592, 3], alloc_size := 2, bit_size := 2, rlw := 0 }
            : EwahBitmap))) 0 :=
  ⟨by decide,
   claim_C6 (ewah_add_dirty_words ewah_new [5] false)
     { buffer := [8589934592, 3], alloc_size := 2, bit_size := 2, rlw := 0 }
     (by decide) (by decide) (ewahWF_of_chk _ (by decide)) 0 (by decide)⟩

/-- C6 (counterexample to the unamended claim): with `A` holding bit 0 over
64 bits and `B` the empty bitmap, position 0 lies below
max(bit_size A, bit_size B) = 64, yet AND-NOT keeps the bit while
AND-with-NOT drops it (NOT of the empty bitmap observes no bits). -/
theorem claim_C6_cex :
    (0 : Nat) < max (ewah_add_dirty_words ewah_new [1] false).bit_size ewah_new.bit_size ∧
    ewahGet (ewah_and_not (ewah_add_dirty_words ewah_new [1] false) ewah_new) 0 = true ∧
    ewahGet (ewah_and (ewah_add_dirty_words ewah_new [1] false) (ewah_not ewah_new)) 0
      = false := by
  refine ⟨by decide, by decide, by decide⟩

/-- C7: applying `ewah_not` twice restores the bitmap exactly (same buffer,
same `bit_size`); a single `ewah_not` truncates the final literal to
`bit_size mod 64` bits, so no spurious high bits are observable at or above
`bit_size`. -/
theorem claim_C7 (B : EwahBitmap) (h : ewahWF B) :
    ewah_not (ewah_not B) = B ∧
    (ewah_not B).bit_size = B.bit_size ∧
    (∀ p, B.bit_size ≤ p → ewahGet (ewah_not B) p = false) := by
  refine ⟨?_, rfl, fun p hp => ewah_not_get_ge B h p hp⟩
  have hdd := notBufT_notBufT
    (if B.bit_size % 64 = 0 then allOnes else 2 ^ (B.bit_size % 64) - 1)
    B.buffer h.1 h.2.1 (fun he => ewahWF_lastWord_masked B h he)
  calc ewah_not (ewah_not B)
      = { B with buffer := (notBufT
          (if B.bit_size % 64 = 0 then allOnes else 2 ^ (B.bit_size % 64) - 1)
          (notBufT (if B.bit_size % 64 = 0 then allOnes else 2 ^ (B.bit_size % 64) - 1)
            B.buffer)) } := rfl
    _ = { B with buffer := B.buffer } := by rw [hdd]
    _ = B := rfl

theorem claim_C7_witness :
    ewah_not (ewah_not ({ buffer := [8589934592, 3], alloc_size := 2, bit_size := 2, rlw := 0 }
        : EwahBitmap))
      = ({ buffer := [8589934592, 3], alloc_size := 2, bit_size := 2, rlw := 0 }
          : EwahBitmap) ∧
    (ewah_not ({ buffer := [8589934592, 3], alloc_size := 2, bit_size := 2, rlw := 0 }
        : EwahBitmap)).bit_size
      = ({ buffer := [8589934592, 3], alloc_size := 2, bit_size := 2, rlw := 0 }
          : EwahBitmap).bit_size ∧
    (∀ p, ({ buffer := [8589934592, 3], alloc_size := 2, bit_size := 2, rlw := 0 }
        : EwahBitmap).bit_size ≤ p →
      ewahGet (ewah_not ({ buffer := [8589934592, 3], alloc_size := 2, bit_size := 2, rlw := 0 }
          : EwahBitmap)) p = false) :=
  claim_C7 { buffer := [8589934592, 3], alloc_size := 2, bit_size := 2, rlw := 0 }
    (ewahWF_of_chk _ (by decide))

/-- C8: `ewah_set i` with `i + 1 < bit_size` violates the monotone-set
contract and is detected (the call is rejected); re-setting the position set
last (`i = bit_size - 1`, whose bit already sits in the tail literal) is
accepted and leaves the bitmap entirely unchanged. -/
theorem claim_C8 (B : EwahBitmap) (i : Nat) :
    (i + 1 < B.bit_size → ewah_set B i = none) ∧
    (B.bit_size = i + 1 → 0 < rlwLitCount (activeRLW B) →
     (B.buffer.getD (B.buffer.length - 1) 0).testBit (i % 64) = true →
     ewah_set B i = some B) :=
  ⟨fun h => ewah_set_none B i h, fun h1 h2 h3 => ewah_set_idem B i h1 h2 h3⟩

theorem claim_C8_witness :
    ewah_set ({ buffer := [8589934592, 8], alloc_size := 32, bit_size := 4, rlw := 0 }
        : EwahBitmap) 2 = none ∧
    ewah_set ({ buffer := [8589934592, 8], alloc_size := 32, bit_size := 4, rlw := 0 }
        : EwahBitmap) 3
      = some ({ buffer := [8589934592, 8], alloc_size := 32, bit_size := 4, rlw := 0 }
          : EwahBitmap) :=
  ⟨(claim_C8 { buffer := [8589934592, 8], alloc_size := 32, bit_size := 4, rlw := 0 } 2).1
      (by decide),
   (claim_C8 { buffer := [8589934592, 8], alloc_size := 32, bit_size := 4, rlw := 0 } 3).2
      (by decide) (by decide) (by decide)⟩

/-- C9: the mutating builder operations keep every marker well formed — run
lengths fit 32 bits and literal counts fit 31 bits — and saturation spills
into fresh markers rather than overflowing: the decoded content grows by
exactly the requested words for any requested count. -/
theorem claim_C9 (B : EwahBitmap) (h : builderInv B = true) :
    (∀ v n, ∀ m ∈ (ewah_add_empty_words B v n).1.buffer,
       rlwRunLen m ≤ maxRun ∧ rlwLitCount m ≤ maxLit) ∧
    (∀ v n, builderInv (ewah_add_empty_words B v n).1 = true ∧
       decodeBuf (ewah_add_empty_words B v n).1.buffer
         = decodeBuf B.buffer ++ List.replicate n (cleanWord v) ∧
       (ewah_add_empty_words B v n).1.bit_size = B.bit_size + 64 * n) ∧
    (∀ ws neg, builderInv (ewah_add_dirty_words B ws neg) = true ∧
       decodeBuf (ewah_add_dirty_words B ws neg).buffer
         = decodeBuf B.buffer ++ ws.map (dirtyWord neg) ∧
       (ewah_add_dirty_words B ws neg).bit_size = B.bit_size + 64 * ws.length) ∧
    (∀ i B', ewah_set B i = some B' → builderInv B' = true) :=
  ⟨fun _ _ m _ => ⟨rlwRunLen_le_maxRun m, rlwLitCount_le_maxLit m⟩,
   fun v n => ewah_add_empty_words_spec B v n h,
   fun ws neg => ewah_add_dirty_words_spec ws B neg h,
   fun i B' hset => ewah_set_inv B i h B' hset⟩

theorem claim_C9_witness :
    (∀ v n, ∀ m ∈ (ewah_add_empty_words ewah_new v n).1.buffer,
       rlwRunLen m ≤ maxRun ∧ rlwLitCount m ≤ maxLit) ∧
    (∀ v n, builderInv (ewah_add_empty_words ewah_new v n).1 = true ∧
       decodeBuf (ewah_add_empty_words ewah_new v n).1.buffer
         = decodeBuf ewah_new.buffer ++ List.replicate n (cleanWord v) ∧
       (ewah_add_empty_words ewah_new v n).1.bit_size = ewah_new.bit_size + 64 * n) ∧
    (∀ ws neg, builderInv (ewah_add_dirty_words ewah_new ws neg) = true ∧
       decodeBuf (ewah_add_dirty_words ewah_new ws neg).buffer
         = decodeBuf ewah_new.buffer ++ ws.map (dirtyWord neg) ∧
       (ewah_add_dirty_words ewah_new ws neg).bit_size
         = ewah_new.bit_size + 64 * ws.length) ∧
    (∀ i B', ewah_set ewah_new i = some B' → builderInv B' = true) :=
  claim_C9 ewah_new (by decide)

/-- C10: `ewah_clear` resets the logical content — `bit_size` becomes 0 and
no set bit remains observable at any position — while the allocated
capacity `alloc_size` is preserved. -/
theorem claim_C10 (B : EwahBitmap) :
    (ewah_clear B).bit_size = 0 ∧
    decodeBuf (ewah_clear B).buffer = [] ∧
    (∀ p, ewahGet (ewah_clear B) p = false) ∧
    (ewah_clear B).alloc_size = B.alloc_size := by
  refine ⟨rfl, rfl, ?_, rfl⟩
  intro p
  rw [ewahGet, show decodeBuf (ewah_clear B).buffer = [] from rfl]
  show (([] : List Nat).getD (p / 64) 0).testBit (p % 64) = false
  simp [List.getD]

end Ewok
